import Mathlib

/-!
# wakawaka: duration aggregation and formatting

A shallow embedding of `main.go` (package `main` of elanq/wakawaka) together with
the parts of the Go standard library the program runs through
(`float64` addition and conversion, `time.ParseDuration`, `time.Duration.Round`,
`url.Values.Add`, the struct decoding of `encoding/json`).

Conventions.
* A `float64` is an `F64`. A finite value is stored exactly, as an integer number of
  units of `2^-1074` (the smallest positive binary64 value), so no rounding is hidden
  in the representation; arithmetic rounds explicitly, to nearest, ties to even.
  The two zeros are identified (the program never divides by a total and prints the
  converted integer only), and there is one NaN.
* `int64` and `time.Duration` values are `Int`s; every machine operation that can
  leave the 64-bit range is followed by `wrap64`.
* Go errors are `Except String`; the message texts are indicative, no statement
  depends on them.
-/

namespace Wakawaka

set_option exponentiation.threshold 3000
set_option maxRecDepth 8000

/-! ## float64 -/

/-- A binary64 value; `finite n` stands for `n * 2^-1074`. -/
inductive F64 where
  | finite (n : Int)
  | posInf
  | negInf
  | nan
deriving DecidableEq, Repr

namespace F64

/-- Number of `2^-1074` units in `1.0`. -/
def scale : Nat := 2 ^ 1074

/-- Binary digits of `a`, counted by halving at most `fuel` times. -/
def bitLengthAux : Nat → Nat → Nat
  | 0, _ => 0
  | fuel + 1, a => if a = 0 then 0 else bitLengthAux fuel (a / 2) + 1

/-- Number of binary digits of `a` (`0` for `0`); `a` halvings are more than enough. -/
def bitLength (a : Nat) : Nat := bitLengthAux a a

/-- Round the non-negative rational `p / q` (in units of `2^-1074`, `q > 0`) to the
nearest binary64 magnitude, ties to the even significand. The significand keeps 53
bits; below `2^53` units the grid is the unit itself (subnormals and the first
binades). `none` is overflow (the rounded magnitude reaches `2^1024`). -/
def roundMag (p q : Nat) : Option Nat :=
  let k := bitLength (p / q) - 53
  let den := q * 2 ^ k
  let m := p / den
  let r := p % den
  let m1 := if den < 2 * r ∨ (2 * r = den ∧ m % 2 = 1) then m + 1 else m
  let v := m1 * 2 ^ k
  if v < 2 ^ 2098 then some v else none

/-- Rounded value of `± p / q` units. -/
def round (neg : Bool) (p q : Nat) : F64 :=
  match roundMag p q with
  | some v => finite (if neg then -(v : Int) else (v : Int))
  | none => if neg then negInf else posInf

/-- A finite value is a binary64 value when it has at most 53 significant bits and
lies below `2^1024`. -/
def representable (n : Int) : Prop :=
  n.natAbs < 2 ^ 2098 ∧ n.natAbs % 2 ^ (bitLength n.natAbs - 53) = 0

instance (n : Int) : Decidable (representable n) := by
  unfold representable; infer_instance

/-- The values of the model that are binary64 values. -/
def valid : F64 → Prop
  | finite n => representable n
  | _ => True

instance (x : F64) : Decidable (valid x) := by
  cases x <;> unfold valid <;> infer_instance

/-- The float64 `+` of Go: the exact sum, rounded. -/
def add : F64 → F64 → F64
  | nan, _ => nan
  | _, nan => nan
  | posInf, negInf => nan
  | negInf, posInf => nan
  | posInf, _ => posInf
  | _, posInf => posInf
  | negInf, _ => negInf
  | _, negInf => negInf
  | finite a, finite b => round (decide (a + b < 0)) (a + b).natAbs 1

/-- The float64 `*` of Go: the exact product, rounded. -/
def mul : F64 → F64 → F64
  | nan, _ => nan
  | _, nan => nan
  | finite a, finite b => round (decide (a * b < 0)) (a * b).natAbs scale
  | finite a, posInf => if a = 0 then nan else if a < 0 then negInf else posInf
  | finite a, negInf => if a = 0 then nan else if a < 0 then posInf else negInf
  | posInf, finite b => if b = 0 then nan else if b < 0 then negInf else posInf
  | negInf, finite b => if b = 0 then nan else if b < 0 then posInf else negInf
  | posInf, posInf => posInf
  | negInf, negInf => posInf
  | posInf, negInf => negInf
  | negInf, posInf => negInf

/-- The float64 `/` of Go: the exact quotient, rounded. The model's zero is read
as `+0` when it divides. -/
def div : F64 → F64 → F64
  | nan, _ => nan
  | _, nan => nan
  | finite a, finite b =>
    if b = 0 then (if a = 0 then nan else if a < 0 then negInf else posInf)
    else round (decide ((a < 0) ≠ (b < 0) ∧ a ≠ 0)) (a.natAbs * scale) b.natAbs
  | finite _, posInf => finite 0
  | finite _, negInf => finite 0
  | posInf, finite b => if b < 0 then negInf else posInf
  | negInf, finite b => if b < 0 then posInf else negInf
  | posInf, posInf => nan
  | posInf, negInf => nan
  | negInf, posInf => nan
  | negInf, negInf => nan

/-- Conversion `float64(x)` of an unsigned integer. -/
def ofNat (x : Nat) : F64 := round false (x * scale) 1

/-- The whole number `x` as a binary64 value, when it is one (`|x| ≤ 2^53` always is). -/
def ofInt (x : Int) : F64 := finite (x * scale)

/-- Exact value of a finite float as a rational number (`0` for the others). -/
def toRat : F64 → ℚ
  | finite n => (n : ℚ) / (scale : ℚ)
  | _ => 0

/-- What a conversion to an integer type gives when the truncated value does not fit
(or there is none, for NaN): Go leaves it implementation-dependent. `indefinite` is
the amd64 result (the "integer indefinite" `-2^63` in every such case),
`saturating` the arm64 one (clamped to the range, `0` for NaN). -/
inductive Conv where
  | indefinite
  | saturating
deriving DecidableEq, Repr

/-- Conversion `int64(d)`: truncation toward zero when that fits in 64 bits. -/
def toInt64 (c : Conv) : F64 → Int
  | finite n =>
    let t := Int.tdiv n scale
    if -2 ^ 63 ≤ t ∧ t < 2 ^ 63 then t
    else match c with
      | .indefinite => -2 ^ 63
      | .saturating => if t < 0 then -2 ^ 63 else 2 ^ 63 - 1
  | posInf => match c with
    | .indefinite => -2 ^ 63
    | .saturating => 2 ^ 63 - 1
  | negInf => -2 ^ 63
  | nan => match c with
    | .indefinite => -2 ^ 63
    | .saturating => 0

/-- Conversion `uint64(x)` for a float in `[0, 2^64)`: truncation. (Used by
`time.ParseDuration` on a value that is at most one hour in nanoseconds; the other
inputs are given `0`.) -/
def toUint64 : F64 → Nat
  | finite n => if 0 ≤ n ∧ n / scale < 2 ^ 64 then (n / scale).toNat else 0
  | _ => 0

end F64

/-! ## package time -/

/-- Two's-complement reduction to the `int64` range. -/
def wrap64 (x : Int) : Int := (x + 2 ^ 63) % 2 ^ 64 - 2 ^ 63

/-- One second as a `time.Duration` (nanoseconds). -/
def Second : Int := 1000000000
/-- One minute as a `time.Duration`. -/
def Minute : Int := 60 * Second
/-- One hour as a `time.Duration`. -/
def Hour : Int := 60 * Minute
/-- Constant `minDuration` of package time. -/
def minDuration : Int := -2 ^ 63
/-- Constant `maxDuration` of package time. -/
def maxDuration : Int := 2 ^ 63 - 1

/-- Go's `lessThanHalf`: `uint64(x)+uint64(x) < uint64(y)`. -/
def lessThanHalf (x y : Int) : Bool := decide ((x % 2 ^ 64 + x % 2 ^ 64) % 2 ^ 64 < y % 2 ^ 64)

/-- Method `Duration.Round`: the nearest multiple of `m`, halfway values away from
zero, saturating at the ends of the range. -/
def Round (d m : Int) : Int :=
  if m ≤ 0 then d
  else
    let r := Int.tmod d m
    if d < 0 then
      let r := wrap64 (-r)
      if lessThanHalf r m then wrap64 (d + r)
      else
        let d1 := wrap64 (wrap64 (d - m) + r)
        if d1 < d then d1 else minDuration
    else
      if lessThanHalf r m then wrap64 (d - r)
      else
        let d1 := wrap64 (wrap64 (d + m) - r)
        if d1 > d then d1 else maxDuration

/-- Table `unitMap` of package time (nanoseconds per unit). -/
def unitMap (u : List Char) : Option Nat :=
  if u = ['n', 's'] then some 1
  else if u = ['u', 's'] then some 1000
  else if u = ['µ', 's'] then some 1000
  else if u = ['μ', 's'] then some 1000
  else if u = ['m', 's'] then some 1000000
  else if u = ['s'] then some 1000000000
  else if u = ['m'] then some 60000000000
  else if u = ['h'] then some 3600000000000
  else none

/-- A decimal digit byte. -/
def isDigit (c : Char) : Bool := decide ('0' ≤ c ∧ c ≤ '9')

/-- Go's `leadingInt`, with the value read so far as `x`: the leading digits of the
text and the rest, `none` when the value passes `2^63`. -/
def leadingInt : List Char → Nat → Option (Nat × List Char)
  | [], x => some (x, [])
  | c :: cs, x =>
    if !isDigit c then some (x, c :: cs)
    else if x > 2 ^ 63 / 10 then none
    else
      let y := x * 10 + (c.toNat - '0'.toNat)
      if y > 2 ^ 63 then none else leadingInt cs y

/-- Go's `leadingFraction`: digits after the point; once the value would overflow
the remaining digits are skipped. -/
def leadingFraction : List Char → Nat → F64 → Bool → Nat × F64 × List Char
  | [], x, sc, _ => (x, sc, [])
  | c :: cs, x, sc, overflow =>
    if !isDigit c then (x, sc, c :: cs)
    else if overflow then leadingFraction cs x sc true
    else if x > (2 ^ 63 - 1) / 10 then leadingFraction cs x sc true
    else
      let y := x * 10 + (c.toNat - '0'.toNat)
      if y > 2 ^ 63 then leadingFraction cs x sc true
      else leadingFraction cs y (F64.mul sc (F64.ofNat 10)) false

/-- The message of a malformed duration. -/
def invalidDuration (orig : List Char) : String := "time: invalid duration " ++ String.mk orig

/-- One round of the loop of `time.ParseDuration`: a decimal number, an optional
fraction and a unit are read off the front of the (non-empty) text `s`; the result is
the value in nanoseconds (a `uint64`) and the rest of the text. -/
def parseGroup (orig s : List Char) : Except String (Nat × List Char) :=
  if !(s.head? = some '.' ∨ (s.head?.map isDigit) = some true) then
    .error (invalidDuration orig)
  else
    match leadingInt s 0 with
    | none => .error (invalidDuration orig)
    | some (v, s1) =>
      let pre := decide (s.length ≠ s1.length)
      let fr : Bool × Nat × F64 × List Char :=
        if s1.head? = some '.' then
          let t := leadingFraction s1.tail 0 (F64.ofNat 1) false
          (decide (s1.tail.length ≠ t.2.2.length), t.1, t.2.1, t.2.2)
        else (false, 0, F64.ofNat 1, s1)
      let post := fr.1
      let f := fr.2.1
      let sc := fr.2.2.1
      let s3 := fr.2.2.2
      if !pre && !post then .error (invalidDuration orig)
      else
        let u := s3.takeWhile (fun c => !(c = '.' ∨ isDigit c))
        let s4 := s3.dropWhile (fun c => !(c = '.' ∨ isDigit c))
        if u.length = 0 then
          .error ("time: missing unit in duration " ++ String.mk orig)
        else
          match unitMap u with
          | none =>
            .error ("time: unknown unit " ++ String.mk u ++ " in duration " ++ String.mk orig)
          | some un =>
            if v > 2 ^ 63 / un then .error (invalidDuration orig)
            else
              let v1 := v * un
              let v2 :=
                if f > 0 then
                  (v1 + F64.toUint64 (F64.mul (F64.ofNat f) (F64.div (F64.ofNat un) sc)))
                    % 2 ^ 64
                else v1
              if f > 0 ∧ v2 > 2 ^ 63 then .error (invalidDuration orig)
              else .ok (v2, s4)

/-- The loop `for s != ""` of `time.ParseDuration`; `d` is the total so far (a
`uint64`). Every round consumes at least the unit, so `fuel` above the length of
the text is never used up. -/
def parseGroups (orig : List Char) : Nat → List Char → Nat → Except String Nat
  | 0, _, _ => .error (invalidDuration orig)
  | _ + 1, [], d => .ok d
  | fuel + 1, c :: cs, d =>
    match parseGroup orig (c :: cs) with
    | .error e => .error e
    | .ok (v, rest) =>
      let d1 := (d + v) % 2 ^ 64
      if d1 > 2 ^ 63 then .error (invalidDuration orig)
      else parseGroups orig fuel rest d1

/-- Function `time.ParseDuration`: an optional sign, then groups of a decimal number
and a unit; the result is in nanoseconds. -/
def ParseDuration (s : String) : Except String Int :=
  let orig := s.data
  let signed := decide (orig.head? = some '-' ∨ orig.head? = some '+')
  let neg := decide (orig.head? = some '-')
  let s1 := if signed then orig.tail else orig
  if s1 = ['0'] then .ok 0
  else if s1 = [] then .error (invalidDuration orig)
  else
    match parseGroups orig (s1.length + 1) s1 0 with
    | .error e => .error e
    | .ok d =>
      if neg then .ok (wrap64 (-(wrap64 d)))
      else if d > 2 ^ 63 - 1 then .error (invalidDuration orig)
      else .ok d

/-! ## main.go -/

/-- Type `DurationResponse`: one record of the `/durations` endpoint. -/
structure DurationResponse where
  Project : String
  Time : F64
  Duration : F64
deriving DecidableEq, Repr

/-- Type `WakatimeResponse`: the decoded payload. -/
structure WakatimeResponse where
  Data : List DurationResponse
  Branches : List String
  Start : String
  End : String
  Timezone : String
deriving DecidableEq, Repr

/-- Method `TotalDuration`: the durations accumulated left to right from `float64(0)`. -/
def WakatimeResponse.TotalDuration (w : WakatimeResponse) : F64 :=
  w.Data.foldl (fun totalDuration d => F64.add totalDuration d.Duration) (F64.finite 0)

/-- Function `formatDuration`. -/
def formatDuration (c : F64.Conv) (d : F64) : Except String String :=
  let strDuration := toString (F64.toInt64 c d) ++ "s"
  match ParseDuration strDuration with
  | .error err => .error err
  | .ok duration =>
    let duration := Round duration Minute
    let h := Int.tdiv duration Hour
    let duration := wrap64 (duration - wrap64 (h * Hour))
    let m := Int.tdiv duration Minute
    .ok (toString h ++ " hour " ++ toString m ++ " minute")

/-- The whole number of minutes nearest to `n` seconds, halfway values away from
zero (what `Round(time.Minute)` leaves of a duration of `n` seconds). -/
def roundMinutes (n : Int) : Int := if n < 0 then -((-n + 30) / 60) else (n + 30) / 60

/-! ## encoding/json -/

/-- Function `strconv.ParseFloat(s, 64)` on the number literal of value `m * 10^e`:
the nearest binary64 value, `none` for the range error (the rounded magnitude
reaches `2^1024`). -/
def F64.ofDecimal (m e : Int) : Option F64 :=
  let p := if 0 ≤ e then m.natAbs * 10 ^ e.toNat * F64.scale else m.natAbs * F64.scale
  let q := if 0 ≤ e then 1 else 10 ^ (-e).toNat
  match F64.roundMag p q with
  | some v => some (F64.finite (if m < 0 then -(v : Int) else (v : Int)))
  | none => none

/-- A JSON text that the scanner of encoding/json accepts, as the value it denotes.
A number literal is kept exactly, as `m * 10^e`; strings and keys are unescaped. -/
inductive Json where
  | null
  | bool (b : Bool)
  | num (m e : Int)
  | str (s : String)
  | arr (xs : List Json)
  | obj (kvs : List (String × Json))

/-- How an `UnmarshalTypeError` names the JSON value. -/
def Json.kind : Json → String
  | .null => "null"
  | .bool _ => "bool"
  | .num _ _ => "number"
  | .str _ => "string"
  | .arr _ => "array"
  | .obj _ => "object"

/-- The message of an `UnmarshalTypeError`. -/
def typeError (v : Json) (ty : String) : String :=
  "json: cannot unmarshal " ++ v.kind ++ " into Go value of type " ++ ty

/-- Method `saveError` of the decoder: the first error is kept, decoding goes on. -/
def saveError (saved : Option String) (err : String) : Option String :=
  match saved with
  | none => some err
  | some e => some e

/-- Case folding of a key, as far as it can reach an ASCII field name: ASCII
letters, and the two other runes that fold to one (U+017F, U+212A). -/
def foldRune (c : Char) : Char :=
  if c = 'ſ' then 'S' else if c = 'K' then 'K' else c.toUpper

/-- A key selects the field of that (lower-case) JSON name when they are equal,
or equal under case folding. -/
def fieldMatch (name key : String) : Bool :=
  decide (key.data.map foldRune = name.data.map foldRune)

/-- Decoding of a JSON value into a `string`: `null` leaves it as it is. -/
def decodeString (v : Json) (cur : String) (saved : Option String) : String × Option String :=
  match v with
  | .str s => (s, saved)
  | .null => (cur, saved)
  | _ => (cur, saveError saved (typeError v "string"))

/-- Decoding of a JSON value into a `float64`: a number in range is stored, `null`
leaves the field as it is, anything else is an `UnmarshalTypeError`. -/
def decodeFloat64 (v : Json) (cur : F64) (saved : Option String) : F64 × Option String :=
  match v with
  | .num m e =>
    match F64.ofDecimal m e with
    | some f => (f, saved)
    | none => (cur, saveError saved (typeError v "float64"))
  | .null => (cur, saved)
  | _ => (cur, saveError saved (typeError v "float64"))

/-- One member of a JSON object decoded into a `DurationResponse`; a key that
selects no field is skipped. -/
def decodeDurationMember (st : DurationResponse × Option String) (kv : String × Json) :
    DurationResponse × Option String :=
  if fieldMatch "project" kv.1 then
    let r := decodeString kv.2 st.1.Project st.2
    ({ st.1 with Project := r.1 }, r.2)
  else if fieldMatch "time" kv.1 then
    let r := decodeFloat64 kv.2 st.1.Time st.2
    ({ st.1 with Time := r.1 }, r.2)
  else if fieldMatch "duration" kv.1 then
    let r := decodeFloat64 kv.2 st.1.Duration st.2
    ({ st.1 with Duration := r.1 }, r.2)
  else st

/-- Decoding of a JSON value into a `DurationResponse`: the members of an object in
turn, `null` without effect, anything else an `UnmarshalTypeError`. -/
def decodeDurationResponse (v : Json) (cur : DurationResponse) (saved : Option String) :
    DurationResponse × Option String :=
  match v with
  | .obj kvs => kvs.foldl decodeDurationMember (cur, saved)
  | .null => (cur, saved)
  | _ => (cur, saveError saved (typeError v "main.DurationResponse"))

/-- The loop of the decoder over the elements of a JSON array going into a slice.
`pool` is the backing array from the current index on: an element is decoded into
what the slice already holds at its index (the decoder does not clear it), into a
zero value beyond that. The result is the decoded elements, what is left of the
backing array, and the saved error. -/
def decodeElements {α : Type} (dec : Json → α → Option String → α × Option String) (zero : α) :
    List Json → List α → Option String → List α × List α × Option String
  | [], pool, saved => ([], pool, saved)
  | x :: xs, pool, saved =>
    let r := dec x (pool.head?.getD zero) saved
    let rest := decodeElements dec zero xs pool.tail r.2
    (r.1 :: rest.1, rest.2.1, rest.2.2)

/-- A Go slice during decoding: its elements, and the elements of its backing array
past its length. -/
structure Slice (α : Type) where
  elems : List α
  spare : List α

/-- Decoding of a JSON value into a slice: an array element by element (an empty
array gives a fresh empty slice), `null` the nil slice, anything else an
`UnmarshalTypeError`. -/
def decodeSlice {α : Type} (dec : Json → α → Option String → α × Option String) (zero : α)
    (ty : String) (v : Json) (s : Slice α) (saved : Option String) : Slice α × Option String :=
  match v with
  | .arr [] => (⟨[], []⟩, saved)
  | .arr (x :: xs) =>
    let r := decodeElements dec zero (x :: xs) (s.elems ++ s.spare) saved
    (⟨r.1, r.2.1⟩, r.2.2)
  | .null => (⟨[], []⟩, saved)
  | _ => (s, saveError saved (typeError v ty))

/-- The decoder's view of the `WakatimeResponse` being filled. -/
structure Decoding where
  response : WakatimeResponse
  spareData : List DurationResponse
  spareBranches : List String
  saved : Option String

/-- The zero value of `DurationResponse`. -/
def DurationResponse.zero : DurationResponse := ⟨"", F64.finite 0, F64.finite 0⟩

/-- The zero value of `WakatimeResponse` (`var response WakatimeResponse`). -/
def WakatimeResponse.zero : WakatimeResponse := ⟨[], [], "", "", ""⟩

/-- One member of the top-level JSON object decoded into the `WakatimeResponse`. -/
def decodeResponseMember (st : Decoding) (kv : String × Json) : Decoding :=
  if fieldMatch "data" kv.1 then
    let r := decodeSlice decodeDurationResponse DurationResponse.zero "[]main.DurationResponse"
      kv.2 ⟨st.response.Data, st.spareData⟩ st.saved
    { st with response := { st.response with Data := r.1.elems }, spareData := r.1.spare,
              saved := r.2 }
  else if fieldMatch "branches" kv.1 then
    let r := decodeSlice decodeString "" "[]string" kv.2
      ⟨st.response.Branches, st.spareBranches⟩ st.saved
    { st with response := { st.response with Branches := r.1.elems }, spareBranches := r.1.spare,
              saved := r.2 }
  else if fieldMatch "start" kv.1 then
    let r := decodeString kv.2 st.response.Start st.saved
    { st with response := { st.response with Start := r.1 }, saved := r.2 }
  else if fieldMatch "end" kv.1 then
    let r := decodeString kv.2 st.response.End st.saved
    { st with response := { st.response with End := r.1 }, saved := r.2 }
  else if fieldMatch "timezone" kv.1 then
    let r := decodeString kv.2 st.response.Timezone st.saved
    { st with response := { st.response with Timezone := r.1 }, saved := r.2 }
  else st

/-- Function `json.Unmarshal(b, &response)` on a fresh `response`. The body is `none`
when the scanner rejects the text (a `SyntaxError`), else the value it denotes. The
result is the filled response, or the first error saved while decoding. -/
def Unmarshal (b : Option Json) : Except String WakatimeResponse :=
  match b with
  | none => .error "json: syntax error"
  | some (.obj kvs) =>
    let st := kvs.foldl decodeResponseMember ⟨WakatimeResponse.zero, [], [], none⟩
    match st.saved with
    | some err => .error err
    | none => .ok st.response
  | some .null => .ok WakatimeResponse.zero
  | some v => .error (typeError v "main.WakatimeResponse")

/-! ## net/url and net/http -/

/-- Type `url.Values`: the values of every key, in order (none for an absent key). -/
abbrev Values := String → List String

/-- Method `Values.Add`: the value is appended to the values the key has. -/
def Values.Add (q : Values) (key value : String) : Values :=
  fun k => if k = key then q k ++ [value] else q k

/-- Method `Values.Get`: the first value of the key, or the empty string. -/
def Values.Get (q : Values) (key : String) : String :=
  (q key).head?.getD ""

/-- What `http.NewRequest` is given and `Header.Add` adds to: the URL text before
the query, the query that `q.Encode()` writes (keys sorted, the values of a key in
their order), and the header pairs. -/
structure Request where
  URL : String
  Query : Values
  Header : List (String × String)

/-- What `client.Do` returns of a response: status, and the outcome of
`ioutil.ReadAll(resp.Body)`, the body being given as in `Unmarshal`. -/
structure Response where
  StatusCode : Int
  Status : String
  Body : Except String (Option Json)

/-- Type `WClient`; the `*http.Client` is its method `Do`. -/
structure WClient where
  apiKey : String
  host : String
  client : Request → Except String Response

/-- The library calls of `doGet` and `Current` whose results are taken as given:
`url.Parse` (as the `RawQuery` of the parsed URL), `url.ParseQuery`, the check of
`http.NewRequest`, and `time.Now().Format("2006-01-02")`. -/
structure Env where
  Parse : String → Except String String
  ParseQuery : String → Except String Values
  NewRequest : String → Values → Except String Unit
  Today : String

/-! ## main.go, continued -/

/-- Method `parseBody`. -/
def WClient.parseBody (_w : WClient) (c : F64.Conv) (b : Option Json) : Except String String :=
  match Unmarshal b with
  | .error err => .error err
  | .ok response =>
    let d := response.TotalDuration
    match formatDuration c d with
    | .error err => .error err
    | .ok duration => .ok duration

/-- The loop `for k, v := range params { q.Add(k, v) }` of `doGet`; `params` lists
the entries of the map in the order of the iteration. -/
def addParams (q : Values) (params : List (String × String)) : Values :=
  params.foldl (fun q kv => q.Add kv.1 kv.2) q

/-- Method `doGet`. -/
def WClient.doGet (w : WClient) (env : Env) (c : F64.Conv) (endpoint : String)
    (params headers : List (String × String)) : Except String String :=
  let urlString := w.host ++ endpoint
  match env.Parse urlString with
  | .error err => .error err
  | .ok rawQuery =>
    match env.ParseQuery rawQuery with
    | .error err => .error err
    | .ok q =>
      let q := addParams q params
      match env.NewRequest urlString q with
      | .error err => .error err
      | .ok _ =>
        let req : Request := ⟨urlString, q, headers⟩
        match w.client req with
        | .error err => .error err
        | .ok resp =>
          if resp.StatusCode ≠ 200 then .error ("NOT OK " ++ resp.Status)
          else
            match resp.Body with
            | .error err => .error err
            | .ok b =>
              match w.parseBody c b with
              | .error err => .error err
              | .ok result => .ok result

/-- Method `Current`. -/
def WClient.Current (w : WClient) (env : Env) (c : F64.Conv) : String :=
  let endpoint := "/users/current/durations"
  let date := env.Today
  let query := [("api_key", w.apiKey), ("date", date)]
  match w.doGet env c endpoint query [] with
  | .error _ => "n/a"
  | .ok result => result

/-! ## Reference notions used to state the properties -/

/-- The whole seconds `floor(d)` of a finite total, as a float. -/
def F64.floor : F64 → F64
  | .finite n => .finite (n / F64.scale * F64.scale)
  | x => x

/-- Formatting that rounds the float seconds directly to the nearest whole minute
(half up), with no truncation to whole seconds first, and splits the minutes into
hours and minutes. -/
def directFormat (d : F64) : String :=
  let M : Int := ⌊d.toRat / 60 + 1 / 2⌋
  toString (M / 60) ++ " hour " ++ toString (M % 60) ++ " minute"

/-- The response that `doGet` gets back from the client, when it gets that far: the
URL and its query parse, the request is built and the transport returns. -/
def WClient.received (w : WClient) (env : Env) (endpoint : String)
    (params headers : List (String × String)) : Option Response :=
  match env.Parse (w.host ++ endpoint) with
  | .error _ => none
  | .ok rawQuery =>
    match env.ParseQuery rawQuery with
    | .error _ => none
    | .ok q =>
      match env.NewRequest (w.host ++ endpoint) (addParams q params) with
      | .error _ => none
      | .ok _ =>
        match w.client ⟨w.host ++ endpoint, addParams q params, headers⟩ with
        | .error _ => none
        | .ok resp => some resp

/-- Magnitude of a finite float, in units of `2^-1074` (`0` for the others). -/
def F64.mag : F64 → Nat
  | .finite n => n.natAbs
  | _ => 0

/-- A finite float in units of `2^-1074` (`0` for the others). -/
def F64.units : F64 → Int
  | .finite n => n
  | _ => 0

/-- A JSON value a `string` field accepts. -/
def isStringOrNull : Json → Bool
  | .str _ => true
  | .null => true
  | _ => false

/-- A JSON value a `float64` field accepts: a number literal in range, or `null`. -/
def isNumberOrNull : Json → Bool
  | .num m e => (F64.ofDecimal m e).isSome
  | .null => true
  | _ => false

/-- A `duration` value that is present and is not a number. -/
def isMalformedNumber : Json → Bool
  | .str _ => true
  | .bool _ => true
  | .arr _ => true
  | .obj _ => true
  | _ => false

/-- A member of a record that decodes without error: a known field with a value of
its type or `null`, or an unknown key. -/
def fieldOK (kv : String × Json) : Bool :=
  if fieldMatch "project" kv.1 then isStringOrNull kv.2
  else if fieldMatch "time" kv.1 then isNumberOrNull kv.2
  else if fieldMatch "duration" kv.1 then isNumberOrNull kv.2
  else true

/-- A member whose key selects the `duration` field. -/
def durationKey (kv : String × Json) : Bool := fieldMatch "duration" kv.1

/-- A member that gives the `duration` field a value: its key selects the field and
its value is a number in range. -/
def durationNumber (kv : String × Json) : Bool :=
  durationKey kv &&
  (match kv.2 with
    | .num m e => (F64.ofDecimal m e).isSome
    | _ => false)

/-- The duration that a record (the members of a JSON object) leaves in a field
holding `d`: the number of the last member that gives one, `d` when there is none
(the field is absent, or `null`). -/
def durationFrom (d : F64) (ms : List (String × Json)) : F64 :=
  match ms.reverse.find? durationNumber with
  | some (_, .num m e) => (F64.ofDecimal m e).getD d
  | _ => d

/-- The duration of an element of the `data` array: that of the record, zero when
the record has none. -/
def recordDuration : Json → F64
  | .obj ms => durationFrom (F64.finite 0) ms
  | _ => F64.finite 0

/-- An element of the `data` array that decodes without error: an object whose
known fields hold values of their type or `null`, or `null`. -/
def recordValueOK : Json → Bool
  | .null => true
  | .obj ms => ms.all fieldOK
  | _ => false

/-- A value that decodes into a slice without error: an array of elements that do,
or `null`. -/
def sliceOK (ok : Json → Bool) : Json → Bool
  | .null => true
  | .arr xs => xs.all ok
  | _ => false

/-- A member of the top-level object that decodes without error: a known field with
a value of its type or `null`, or an unknown key. -/
def topMemberOK (kv : String × Json) : Bool :=
  if fieldMatch "data" kv.1 then sliceOK recordValueOK kv.2
  else if fieldMatch "branches" kv.1 then sliceOK isStringOrNull kv.2
  else if fieldMatch "start" kv.1 then isStringOrNull kv.2
  else if fieldMatch "end" kv.1 then isStringOrNull kv.2
  else if fieldMatch "timezone" kv.1 then isStringOrNull kv.2
  else true

/-- A member of the top-level object other than `data` that decodes without error. -/
def memberOK (kv : String × Json) : Bool :=
  !fieldMatch "data" kv.1 && topMemberOK kv

/-- The bodies that `json.Unmarshal` decodes into the response without error: valid
JSON, an object or `null`, every known field of the object and of the records
holding a value of its type or `null`. -/
def accepts : Option Json → Bool
  | some .null => true
  | some (.obj kvs) => kvs.all topMemberOK
  | _ => false

/-- A record of the expected response body, in the words of the specification: an
object `{project?, time?, duration?}` with a string and two numbers. -/
def expectedRecord : Json → Bool
  | .obj ms => ms.all (fun kv =>
      if kv.1 = "project" then (match kv.2 with | .str _ => true | _ => false)
      else if kv.1 = "time" ∨ kv.1 = "duration" then
        (match kv.2 with | .num _ _ => true | _ => false)
      else true)
  | _ => false

/-- The expected response body, in the words of the specification: a JSON object
with `data` an array of records, `branches` an array of strings, and `start`, `end`,
`timezone` strings; missing and unrecognized fields are allowed. -/
def expectedShape : Json → Bool
  | .obj kvs => kvs.all (fun kv =>
      if kv.1 = "data" then (match kv.2 with | .arr xs => xs.all expectedRecord | _ => false)
      else if kv.1 = "branches" then
        (match kv.2 with
          | .arr xs => xs.all (fun x => match x with | .str _ => true | _ => false)
          | _ => false)
      else if kv.1 = "start" ∨ kv.1 = "end" ∨ kv.1 = "timezone" then
        (match kv.2 with | .str _ => true | _ => false)
      else true)
  | _ => false

/-- No addition rounds while the floats of the list are accumulated from `acc`:
every partial sum is finite and is the exact sum. -/
def exactSteps : F64 → List F64 → Bool
  | _, [] => true
  | .finite a, .finite b :: t =>
    decide (F64.add (.finite a) (.finite b) = .finite (a + b)) && exactSteps (.finite (a + b)) t
  | _, _ :: _ => false
/-! ## Decimal text of an integer -/

theorem wrap64_of_range (x : Int) (h : -2 ^ 63 ≤ x ∧ x < 2 ^ 63) : wrap64 x = x := by
  unfold wrap64
  omega

theorem toDigitsCore_fuel (f1 : Nat) : ∀ (f2 n : Nat) (ds : List Char), n < f1 → n < f2 →
    Nat.toDigitsCore 10 f1 n ds = Nat.toDigitsCore 10 f2 n ds := by
  induction f1 with
  | zero => intro f2 n ds h; omega
  | succ k ih =>
    intro f2 n ds h1 h2
    cases f2 with
    | zero => omega
    | succ j =>
      simp only [Nat.toDigitsCore]
      by_cases h0 : n / 10 = 0
      · simp [h0]
      · simp only [h0, if_false]
        apply ih <;> omega

theorem toDigitsCore_append (f : Nat) : ∀ (n : Nat) (ds : List Char),
    Nat.toDigitsCore 10 f n ds = Nat.toDigitsCore 10 f n [] ++ ds := by
  induction f with
  | zero => intro n ds; simp [Nat.toDigitsCore]
  | succ k ih =>
    intro n ds
    simp only [Nat.toDigitsCore]
    by_cases h0 : n / 10 = 0
    · simp [h0]
    · simp only [h0, if_false]
      rw [ih (n / 10) (_ :: ds), ih (n / 10) [_]]
      simp

theorem toDigits_small (n : Nat) (h : n < 10) : Nat.toDigits 10 n = [Nat.digitChar n] := by
  have h0 : n / 10 = 0 := by omega
  have h1 : n % 10 = n := by omega
  simp [Nat.toDigits, Nat.toDigitsCore, h0, h1]

theorem toDigits_step (n : Nat) (h : 10 ≤ n) :
    Nat.toDigits 10 n = Nat.toDigits 10 (n / 10) ++ [Nat.digitChar (n % 10)] := by
  have h0 : n / 10 ≠ 0 := by omega
  unfold Nat.toDigits
  rw [Nat.toDigitsCore]
  simp only [h0, if_false]
  rw [toDigitsCore_fuel n (n / 10 + 1) (n / 10) _ (by omega) (by omega), toDigitsCore_append]

theorem isDigit_digitChar (d : Nat) (h : d < 10) :
    isDigit (Nat.digitChar d) = true ∧ (Nat.digitChar d).toNat - '0'.toNat = d := by
  interval_cases d <;> decide

theorem leadingInt_toDigits (n : Nat) : ∀ (rest : List Char), n ≤ 2 ^ 63 →
    leadingInt (Nat.toDigits 10 n ++ rest) 0 = leadingInt rest n := by
  induction n using Nat.strong_induction_on with
  | _ n ih =>
    intro rest hn
    by_cases h : n < 10
    · rw [toDigits_small n h]
      obtain ⟨h1, h2⟩ := isDigit_digitChar n h
      have h3 : ¬ (0 > 2 ^ 63 / 10) := by omega
      have h4 : 0 * 10 + n = n := by omega
      have h5 : ¬ (n > 2 ^ 63) := by omega
      simp only [List.singleton_append, leadingInt, h1, h2]
      simp only [Bool.not_true, Bool.false_eq_true, if_false, h4, if_neg h3, if_neg h5]
      rfl
    · rw [toDigits_step n (by omega), List.append_assoc, ih (n / 10) (by omega) _ (by omega)]
      obtain ⟨h1, h2⟩ := isDigit_digitChar (n % 10) (by omega)
      simp only [List.singleton_append, leadingInt, h1, h2]
      have h3 : ¬ (n / 10 > 2 ^ 63 / 10) := by omega
      have h4 : n / 10 * 10 + n % 10 = n := by omega
      have h5 : ¬ (n > 2 ^ 63) := by omega
      simp only [Bool.not_true, Bool.false_eq_true, if_false, h4, if_neg h3, if_neg h5]
      rfl


theorem toDigits_head (n : Nat) :
    ∃ c cs, Nat.toDigits 10 n = c :: cs ∧ isDigit c = true := by
  induction n using Nat.strong_induction_on with
  | _ n ih =>
    by_cases h : n < 10
    · exact ⟨_, [], toDigits_small n h, (isDigit_digitChar n h).1⟩
    · obtain ⟨c, cs, h1, h2⟩ := ih (n / 10) (by omega)
      exact ⟨c, cs ++ [Nat.digitChar (n % 10)], by rw [toDigits_step n (by omega), h1]; rfl, h2⟩

theorem parseGroup_seconds (orig : List Char) (n : Nat) (hn : n ≤ 2 ^ 63) :
    parseGroup orig (Nat.toDigits 10 n ++ ['s']) =
      if n > 2 ^ 63 / 1000000000 then .error (invalidDuration orig)
      else .ok (n * 1000000000, []) := by
  obtain ⟨c, cs, h1, h2⟩ := toDigits_head n
  have hl : leadingInt (Nat.toDigits 10 n ++ ['s']) 0 = some (n, ['s']) := by
    rw [leadingInt_toDigits n _ hn]
    rfl
  unfold parseGroup
  rw [hl]
  generalize F64.ofNat 1 = one
  have e1 : (some 's' = some '.') = False := by decide
  have e2 : List.takeWhile (fun c => !decide (c = '.' ∨ isDigit c = true)) ['s'] = ['s'] := by
    decide
  have e3 : List.dropWhile (fun c => !decide (c = '.' ∨ isDigit c = true)) ['s'] = [] := by
    decide
  have e4 : unitMap ['s'] = some 1000000000 := by decide
  simp only [h1, List.cons_append, List.head?_cons, Option.map_some', h2, e1, if_false, e2, e3,
    e4, List.length_cons, List.length_append, List.length_nil, List.length_singleton]
  simp


theorem parseGroups_seconds (orig : List Char) (fuel n : Nat) (hn : n ≤ 2 ^ 63) :
    parseGroups orig (fuel + 2) (Nat.toDigits 10 n ++ ['s']) 0 =
      if n > 2 ^ 63 / 1000000000 then .error (invalidDuration orig)
      else .ok (n * 1000000000) := by
  obtain ⟨c, cs, h1, -⟩ := toDigits_head n
  have hg := parseGroup_seconds orig n hn
  rw [h1] at hg ⊢
  simp only [List.cons_append] at hg ⊢
  rw [parseGroups, hg]
  by_cases h : n > 2 ^ 63 / 1000000000
  · simp only [if_pos h]
  · simp only [if_neg h]
    have h3 : (0 + n * 1000000000) % 2 ^ 64 = n * 1000000000 := by
      rw [Nat.zero_add]; apply Nat.mod_eq_of_lt; omega
    have h2 : ¬ (n * 1000000000 > 2 ^ 63) := by omega
    simp only [h3, if_neg h2, parseGroups]

theorem digit_not_sign (c : Char) (h : isDigit c = true) : c ≠ '-' ∧ c ≠ '+' := by
  constructor <;> (intro e; subst e; revert h; decide)

theorem ParseDuration_seconds (n : Int) (hn : n.natAbs ≤ 2 ^ 63) :
    ParseDuration (toString n ++ "s") =
      if n.natAbs ≤ 9223372036 then .ok (n * Second)
      else .error (invalidDuration (toString n ++ "s").data) := by
  cases n with
  | ofNat m =>
    have hd : (toString (Int.ofNat m) ++ "s").data = Nat.toDigits 10 m ++ ['s'] := rfl
    obtain ⟨c, cs, h1, h2⟩ := toDigits_head m
    obtain ⟨h3, h4⟩ := digit_not_sign c h2
    have hm : m ≤ 2 ^ 63 := by simpa using hn
    unfold ParseDuration
    simp only [hd]
    have e1 : (Nat.toDigits 10 m ++ ['s']).head? = some c := by rw [h1]; rfl
    have e2 : (Nat.toDigits 10 m ++ ['s']).length = cs.length + 2 := by rw [h1]; simp
    have e3 : ¬ (Nat.toDigits 10 m ++ ['s'] = ['0']) := by
      intro e; have := congrArg List.length e; rw [e2] at this; simp at this
    have e4 : ¬ (Nat.toDigits 10 m ++ ['s'] = []) := by
      intro e; have := congrArg List.length e; rw [e2] at this; simp at this
    simp only [e1, Option.some.injEq, h3, h4, or_self, decide_False, Bool.false_eq_true, if_false,
      e3, e4, e2, parseGroups_seconds _ _ _ hm]
    by_cases h : m > 2 ^ 63 / 1000000000
    · have h5 : ¬ ((Int.ofNat m).natAbs ≤ 9223372036) := by simp; omega
      simp only [if_pos h, if_neg h5]
    · have h5 : ((Int.ofNat m).natAbs ≤ 9223372036) := by simp; omega
      have h6 : ¬ (m * 1000000000 > 2 ^ 63 - 1) := by omega
      simp only [if_neg h, if_pos h5, if_neg h6]
      simp [Second]
  | negSucc m =>
    have hd : (toString (Int.negSucc m) ++ "s").data = '-' :: (Nat.toDigits 10 (m + 1) ++ ['s']) :=
      rfl
    obtain ⟨c, cs, h1, h2⟩ := toDigits_head (m + 1)
    have hm : m + 1 ≤ 2 ^ 63 := by simpa using hn
    unfold ParseDuration
    simp only [hd]
    have e2 : (Nat.toDigits 10 (m + 1) ++ ['s']).length = cs.length + 2 := by rw [h1]; simp
    have e3 : ¬ (Nat.toDigits 10 (m + 1) ++ ['s'] = ['0']) := by
      intro e; have := congrArg List.length e; rw [e2] at this; simp at this
    have e4 : ¬ (Nat.toDigits 10 (m + 1) ++ ['s'] = []) := by
      intro e; have := congrArg List.length e; rw [e2] at this; simp at this
    simp only [List.head?_cons, true_or, decide_True, if_true, List.tail_cons,
      e3, e4, e2, parseGroups_seconds _ _ _ hm, if_false]
    by_cases h : m + 1 > 2 ^ 63 / 1000000000
    · have h5 : ¬ ((Int.negSucc m).natAbs ≤ 9223372036) := by simp; omega
      simp only [if_pos h, if_neg h5]
    · have h5 : ((Int.negSucc m).natAbs ≤ 9223372036) := by simp; omega
      simp only [if_neg h, if_pos h5]
      have hw : wrap64 (-(wrap64 (((m + 1) * 1000000000 : Nat) : Int))) = Int.negSucc m * Second := by
        rw [wrap64_of_range (((m + 1) * 1000000000 : Nat) : Int) (by constructor <;> omega),
          wrap64_of_range _ (by constructor <;> omega)]
        simp only [Second, Int.negSucc_eq]
        push_cast
        ring
      rw [hw]

/-! ## Rounding to the minute -/

theorem tmod_neg_left (a b : Int) (ha : 0 ≤ a) (hb : 0 ≤ b) : Int.tmod (-a) b = -(a % b) := by
  rw [Int.tmod_def, Int.neg_tdiv, Int.tdiv_eq_ediv ha hb, Int.emod_def]
  ring

theorem tdiv_neg_left (a b : Int) (ha : 0 ≤ a) (hb : 0 ≤ b) : Int.tdiv (-a) b = -(a / b) := by
  rw [Int.neg_tdiv, Int.tdiv_eq_ediv ha hb]

theorem lessThanHalf_small (x y : Int) (hx : 0 ≤ x ∧ x < 2 ^ 62) (hy : 0 ≤ y ∧ y < 2 ^ 64) :
    lessThanHalf x y = decide (2 * x < y) := by
  unfold lessThanHalf
  rw [Int.emod_eq_of_lt hx.1 (by omega), Int.emod_eq_of_lt (by omega) (by omega),
    Int.emod_eq_of_lt hy.1 hy.2]
  congr 1
  apply propext
  constructor <;> intro h <;> omega

theorem wrap64_sub_wrap (a b : Int) : wrap64 (wrap64 a - b) = wrap64 (a - b) := by
  unfold wrap64
  omega

theorem wrap64_add_wrap (a b : Int) : wrap64 (wrap64 a + b) = wrap64 (a + b) := by
  unfold wrap64
  omega

theorem seconds_mod_minute (k : Int) :
    (k * 1000000000) % 60000000000 = (k % 60) * 1000000000 := by
  omega

theorem Round_seconds_nonneg (k : Int) (h0 : 0 ≤ k) (hk : k ≤ 9223372036) :
    Round (k * Second) Minute = (k + 30) / 60 * Minute := by
  unfold Round
  have hm : ¬ (Minute ≤ 0) := by decide
  have hd : ¬ (k * Second < 0) := by unfold Second; omega
  rw [if_neg hm]
  simp only [if_neg hd]
  rw [Int.tmod_eq_emod (by unfold Second; omega) (by decide)]
  unfold Minute Second
  rw [show (60 * 1000000000 : Int) = 60000000000 from rfl, seconds_mod_minute,
    lessThanHalf_small _ _ (by constructor <;> omega) (by constructor <;> omega)]
  by_cases h : k % 60 < 30
  · have h1 : 2 * (k % 60 * 1000000000) < 60000000000 := by omega
    simp only [h1, decide_True, if_true]
    rw [wrap64_of_range _ (by constructor <;> omega)]
    omega
  · have h1 : ¬ (2 * (k % 60 * 1000000000) < 60000000000) := by omega
    simp only [h1, decide_False, Bool.false_eq_true, if_false]
    rw [wrap64_sub_wrap, wrap64_of_range _ (by constructor <;> omega)]
    have h2 : k * 1000000000 + 60000000000 - k % 60 * 1000000000 > k * 1000000000 := by omega
    rw [if_pos h2]
    omega

theorem Round_seconds_neg (k : Int) (h0 : 0 < k) (hk : k ≤ 9223372036) :
    Round (-(k * Second)) Minute = -((k + 30) / 60 * Minute) := by
  unfold Round
  have hm : ¬ (Minute ≤ 0) := by decide
  have hd : (-(k * Second) < 0) := by unfold Second; omega
  rw [if_neg hm]
  simp only [if_pos hd]
  rw [tmod_neg_left _ _ (by unfold Second; omega) (by decide)]
  unfold Minute Second
  rw [show (60 * 1000000000 : Int) = 60000000000 from rfl, seconds_mod_minute, neg_neg,
    wrap64_of_range (k % 60 * 1000000000) (by constructor <;> omega),
    lessThanHalf_small _ _ (by constructor <;> omega) (by constructor <;> omega)]
  by_cases h : k % 60 < 30
  · have h1 : 2 * (k % 60 * 1000000000) < 60000000000 := by omega
    simp only [h1, decide_True, if_true]
    rw [wrap64_of_range _ (by constructor <;> omega)]
    omega
  · have h1 : ¬ (2 * (k % 60 * 1000000000) < 60000000000) := by omega
    simp only [h1, decide_False, Bool.false_eq_true, if_false]
    rw [wrap64_add_wrap, wrap64_of_range _ (by constructor <;> omega)]
    have h2 : -(k * 1000000000) - 60000000000 + k % 60 * 1000000000 < -(k * 1000000000) := by
      omega
    rw [if_pos h2]
    omega

/-! ## formatDuration in closed form -/

theorem toInt64_range (c : F64.Conv) (d : F64) :
    -2 ^ 63 ≤ F64.toInt64 c d ∧ F64.toInt64 c d < 2 ^ 63 := by
  cases d <;> cases c <;> simp only [F64.toInt64] <;> (try split_ifs) <;> omega

theorem hour_minute_nonneg (P : Int) (h0 : 0 ≤ P) (hP : P ≤ 153722868) :
    Int.tdiv (P * Minute) Hour = Int.tdiv P 60 ∧
    Int.tdiv (wrap64 (P * Minute - wrap64 (Int.tdiv (P * Minute) Hour * Hour))) Minute
      = Int.tmod P 60 := by
  have e1 : Int.tdiv (P * Minute) Hour = P / 60 := by
    rw [Int.tdiv_eq_ediv (by unfold Minute Second; omega) (by decide)]
    unfold Minute Hour Minute Second
    omega
  rw [e1, Int.tdiv_eq_ediv h0 (by decide), Int.tmod_eq_emod h0 (by decide)]
  refine ⟨rfl, ?_⟩
  unfold Hour Minute Second
  rw [wrap64_of_range (P / 60 * _) (by constructor <;> omega),
    wrap64_of_range _ (by constructor <;> omega),
    Int.tdiv_eq_ediv (by omega) (by decide)]
  omega

theorem hour_minute_neg (P : Int) (h0 : 0 ≤ P) (hP : P ≤ 153722868) :
    Int.tdiv (-(P * Minute)) Hour = Int.tdiv (-P) 60 ∧
    Int.tdiv (wrap64 (-(P * Minute) - wrap64 (Int.tdiv (-(P * Minute)) Hour * Hour))) Minute
      = Int.tmod (-P) 60 := by
  have e1 : Int.tdiv (-(P * Minute)) Hour = -(P / 60) := by
    rw [tdiv_neg_left _ _ (by unfold Minute Second; omega) (by decide)]
    unfold Minute Hour Minute Second
    omega
  rw [e1, tdiv_neg_left _ _ h0 (by decide), tmod_neg_left _ _ h0 (by decide)]
  refine ⟨rfl, ?_⟩
  unfold Hour Minute Second
  rw [wrap64_of_range (-(P / 60) * _) (by constructor <;> omega),
    wrap64_of_range _ (by constructor <;> omega)]
  have e2 : -(P * (60 * 1000000000)) - -(P / 60) * (60 * (60 * 1000000000))
      = -((P % 60) * 60000000000) := by omega
  rw [e2, tdiv_neg_left _ _ (by omega) (by decide)]
  omega

theorem formatDuration_eq (c : F64.Conv) (d : F64) :
    formatDuration c d =
      if (F64.toInt64 c d).natAbs ≤ 9223372036 then
        .ok (toString (Int.tdiv (roundMinutes (F64.toInt64 c d)) 60) ++ " hour " ++
          toString (Int.tmod (roundMinutes (F64.toInt64 c d)) 60) ++ " minute")
      else .error (invalidDuration (toString (F64.toInt64 c d) ++ "s").data) := by
  have hr := toInt64_range c d
  unfold formatDuration
  simp only []
  generalize F64.toInt64 c d = n at hr ⊢
  rw [ParseDuration_seconds n (by omega)]
  by_cases h : n.natAbs ≤ 9223372036
  · simp only [if_pos h]
    by_cases hs : n < 0
    · obtain ⟨k, rfl⟩ : ∃ k : Int, n = -k := ⟨-n, by omega⟩
      have hk : 0 < k ∧ k ≤ 9223372036 := by omega
      rw [show -k * Second = -(k * Second) by ring, Round_seconds_neg k hk.1 hk.2]
      obtain ⟨e1, e2⟩ := hour_minute_neg ((k + 30) / 60) (by omega) (by omega)
      have e3 : roundMinutes (-k) = -((k + 30) / 60) := by
        unfold roundMinutes; rw [if_pos hs, neg_neg]
      rw [e2, e1, e3]
    · have hk : 0 ≤ n ∧ n ≤ 9223372036 := by omega
      rw [Round_seconds_nonneg n hk.1 hk.2]
      obtain ⟨e1, e2⟩ := hour_minute_nonneg ((n + 30) / 60) (by omega) (by omega)
      have e3 : roundMinutes n = (n + 30) / 60 := by
        unfold roundMinutes; rw [if_neg hs]
      rw [e2, e1, e3]
  · simp only [if_neg h]

/-! ## Conversion and rounding of a finite total -/

theorem scale_pos : (0 : Int) < (F64.scale : Int) := by
  unfold F64.scale; positivity

theorem toInt64_finite_nonneg (c : F64.Conv) (n : Int) (h0 : 0 ≤ n)
    (h : n / (F64.scale : Int) < 2 ^ 63) : F64.toInt64 c (F64.finite n) = n / (F64.scale : Int) := by
  have hq : 0 ≤ n / (F64.scale : Int) := Int.ediv_nonneg h0 (le_of_lt scale_pos)
  simp only [F64.toInt64]
  rw [Int.tdiv_eq_ediv h0 (le_of_lt scale_pos)]
  rw [if_pos ⟨by omega, h⟩]

theorem toInt64_finite_large (c : F64.Conv) (n : Int) (h0 : 0 ≤ n)
    (h : 2 ^ 63 ≤ n / (F64.scale : Int)) : (F64.toInt64 c (F64.finite n)).natAbs > 9223372036 := by
  simp only [F64.toInt64]
  rw [Int.tdiv_eq_ediv h0 (le_of_lt scale_pos)]
  rw [if_neg (by omega)]
  cases c
  · simp only []; decide
  · simp only []
    rw [if_neg (by omega)]
    decide

theorem ediv_ediv_pos (a b c : Int) (hb : 0 < b) (hc : 0 < c) : a / b / c = a / (b * c) := by
  have h1 := Int.emod_add_ediv a b
  have h2 := Int.emod_add_ediv (a / b) c
  have h3 := Int.emod_nonneg a (ne_of_gt hb)
  have h4 := Int.emod_lt_of_pos a hb
  have h5 := Int.emod_nonneg (a / b) (ne_of_gt hc)
  have h6 := Int.emod_lt_of_pos (a / b) hc
  have hbc : 0 < b * c := Int.mul_pos hb hc
  symm
  refine ((Int.ediv_emod_unique hbc).mpr
    (⟨?_, ?_, ?_⟩ : (b * (a / b % c) + a % b) + b * c * (a / b / c) = a ∧ _ ∧ _)).1
  · have : b * (a / b % c) + a % b + b * c * (a / b / c)
        = a % b + b * (a / b % c + c * (a / b / c)) := by ring
    rw [this, h2, h1]
  · have := Int.mul_nonneg (le_of_lt hb) h5
    omega
  · have : b * (a / b % c) ≤ b * (c - 1) := Int.mul_le_mul_of_nonneg_left (by omega) (le_of_lt hb)
    have e : b * (c - 1) = b * c - b := by ring
    omega

theorem floor_round_minute (n : Int) :
    ⌊(n : ℚ) / (F64.scale : ℚ) / 60 + 1 / 2⌋ = (n / (F64.scale : Int) + 30) / 60 := by
  have hs : (F64.scale : ℚ) ≠ 0 := by unfold F64.scale; positivity
  have e : (n : ℚ) / (F64.scale : ℚ) / 60 + 1 / 2
      = ((n + 30 * (F64.scale : Int) : Int) : ℚ) / ((60 * F64.scale : Nat) : ℚ) := by
    push_cast
    field_simp
    ring
  rw [e, Rat.floor_intCast_div_natCast]
  have hpos := scale_pos
  push_cast
  rw [mul_comm (60 : Int) _, ← ediv_ediv_pos _ _ _ hpos (by decide),
    Int.add_mul_ediv_right _ _ (ne_of_gt hpos)]

/-! ## The query of the request -/

theorem addParams_apply (params : List (String × String)) : ∀ (q : Values) (k : String),
    addParams q params k = q k ++ (params.filter (fun kv => decide (kv.1 = k))).map (fun kv => kv.2) := by
  induction params with
  | nil => intro q k; simp [addParams]
  | cons p ps ih =>
    intro q k
    have e : addParams q (p :: ps) = addParams (q.Add p.1 p.2) ps := rfl
    rw [e, ih]
    by_cases h : k = p.1
    · subst h
      simp [Values.Add]
    · have h2 : ¬ (p.1 = k) := fun e => h e.symm
      simp [Values.Add, h, h2]

theorem filter_key_of_mem (params : List (String × String)) (k v : String)
    (hnd : (params.map (fun kv => kv.1)).Nodup) (hm : (k, v) ∈ params) :
    (params.filter (fun kv => decide (kv.1 = k))).map (fun kv => kv.2) = [v] := by
  induction params with
  | nil => cases hm
  | cons p ps ih =>
    simp only [List.map_cons, List.nodup_cons] at hnd
    rcases List.mem_cons.mp hm with h | h
    · subst h
      have hnone : ps.filter (fun kv => decide (kv.1 = k)) = [] := by
        apply List.filter_eq_nil_iff.mpr
        intro a ha hk
        apply hnd.1
        have : a.1 = k := by simpa using hk
        exact List.mem_map.mpr ⟨a, ha, this⟩
      simp [List.filter_cons, hnone]
    · have hne : ¬ (p.1 = k) := by
        intro e
        apply hnd.1
        exact List.mem_map.mpr ⟨(k, v), h, e.symm⟩
      simp only [List.filter_cons, hne, decide_False, Bool.false_eq_true, if_false]
      exact ih hnd.2 h

theorem filter_key_of_not_mem (params : List (String × String)) (k : String)
    (hm : ∀ v, (k, v) ∉ params) :
    (params.filter (fun kv => decide (kv.1 = k))).map (fun kv => kv.2) = [] := by
  have hnone : params.filter (fun kv => decide (kv.1 = k)) = [] := by
    apply List.filter_eq_nil_iff.mpr
    intro a ha hk
    have e : a.1 = k := by simpa using hk
    apply hm a.2
    rw [← e]
    exact ha
  rw [hnone]; rfl

/-! ## Additions that do not round -/

theorem bitLengthAux_le (fuel : Nat) : ∀ (a k : Nat), a ≤ fuel → a < 2 ^ k →
    F64.bitLengthAux fuel a ≤ k := by
  induction fuel with
  | zero => intro a k _ _; simp [F64.bitLengthAux]
  | succ f ih =>
    intro a k hf hk
    unfold F64.bitLengthAux
    by_cases h0 : a = 0
    · simp [h0]
    · rw [if_neg h0]
      cases k with
      | zero => simp at hk; omega
      | succ j =>
        have := ih (a / 2) j (by omega) (by rw [Nat.pow_succ] at hk; omega)
        omega

theorem bitLength_le (a k : Nat) (h : a < 2 ^ k) : F64.bitLength a ≤ k :=
  bitLengthAux_le a a k (Nat.le_refl a) h

theorem roundMag_exact (p e : Nat) (he : e ≤ 2044) (hd : 2 ^ e ∣ p) (hp : p ≤ 2 ^ (53 + e)) :
    F64.roundMag p 1 = some p := by
  have hk : 2 ^ (F64.bitLength (p / 1) - 53) ∣ p := by
    rw [Nat.div_one]
    by_cases hlt : p < 2 ^ (53 + e)
    · have := bitLength_le p (53 + e) hlt
      exact Nat.dvd_trans (Nat.pow_dvd_pow 2 (by omega)) hd
    · have hpe : p = 2 ^ (53 + e) := by omega
      have hlt2 : p < 2 ^ (54 + e) := by
        rw [hpe]; exact Nat.pow_lt_pow_right (by decide) (by omega)
      have hb := bitLength_le p (54 + e) hlt2
      have h1 : 2 ^ (F64.bitLength p - 53) ∣ 2 ^ (53 + e) := Nat.pow_dvd_pow 2 (by omega)
      rwa [← hpe] at h1
  have hlt : p < 2 ^ 2098 :=
    lt_of_le_of_lt hp (Nat.pow_lt_pow_right (by decide) (by omega))
  unfold F64.roundMag
  simp only [Nat.one_mul]
  generalize F64.bitLength (p / 1) - 53 = k at hk
  have hpos : 0 < 2 ^ k := Nat.two_pow_pos k
  have hr : p % 2 ^ k = 0 := Nat.mod_eq_zero_of_dvd hk
  have hc : ¬ (2 ^ k < 2 * (p % 2 ^ k) ∨ (2 * (p % 2 ^ k) = 2 ^ k ∧ p / 2 ^ k % 2 = 1)) := by
    rw [hr]; omega
  rw [if_neg hc, Nat.div_mul_cancel hk, if_pos hlt]

theorem add_exact (a b : Int) (e : Nat) (he : e ≤ 2044)
    (hd : ((2 ^ e : Nat) : Int) ∣ a + b) (hs : (a + b).natAbs ≤ 2 ^ (53 + e)) :
    F64.add (F64.finite a) (F64.finite b) = F64.finite (a + b) := by
  have hd2 : 2 ^ e ∣ (a + b).natAbs := Int.natCast_dvd.mp hd
  show F64.round (decide (a + b < 0)) (a + b).natAbs 1 = _
  unfold F64.round
  rw [roundMag_exact _ e he hd2 hs]
  by_cases hneg : a + b < 0
  · simp only [hneg, decide_True, if_true]
    congr 1
    omega
  · simp only [hneg, decide_False, Bool.false_eq_true, if_false]
    congr 1
    omega

theorem mag_finite (n : Int) : (F64.finite n).mag = n.natAbs := rfl

theorem units_finite (n : Int) : (F64.finite n).units = n := rfl

/-! ## Accumulations in which no addition rounds -/

theorem TotalDuration_eq_foldl (w : WakatimeResponse) :
    w.TotalDuration = (w.Data.map (fun r => r.Duration)).foldl F64.add (F64.finite 0) := by
  unfold WakatimeResponse.TotalDuration
  rw [List.foldl_map]

theorem exactSteps_foldl (l : List F64) : ∀ (a : Int), exactSteps (F64.finite a) l = true →
    l.foldl F64.add (F64.finite a) = F64.finite (a + (l.map F64.units).sum) := by
  induction l with
  | nil => intro a _; simp
  | cons d t ih =>
    intro a h
    cases d with
    | finite b =>
      simp only [exactSteps, Bool.and_eq_true, decide_eq_true_eq] at h
      simp only [List.foldl_cons, List.map_cons, List.sum_cons, units_finite]
      rw [h.1, ih _ h.2]
      congr 1
      ring
    | _ => simp [exactSteps] at h

theorem exactSteps_of_multiples (e : Nat) (he : e ≤ 2044) : ∀ (l : List F64) (a : Int),
    ((2 ^ e : Nat) : Int) ∣ a →
    (∀ d ∈ l, ∃ k : Int, d = F64.finite (k * ((2 ^ e : Nat) : Int))) →
    a.natAbs + (l.map F64.mag).sum ≤ 2 ^ (53 + e) →
    exactSteps (F64.finite a) l = true := by
  intro l
  induction l with
  | nil => intro a _ _ _; rfl
  | cons d t ih =>
    intro a ha hl hs
    obtain ⟨k, hk⟩ := hl d (List.mem_cons_self _ _)
    subst hk
    simp only [List.map_cons, List.sum_cons, mag_finite] at hs
    have hd : ((2 ^ e : Nat) : Int) ∣ a + k * ((2 ^ e : Nat) : Int) :=
      Int.dvd_add ha (Int.dvd_mul_left _ _)
    have hn := Int.natAbs_add_le a (k * ((2 ^ e : Nat) : Int))
    simp only [exactSteps, Bool.and_eq_true, decide_eq_true_eq]
    exact ⟨add_exact a _ e he hd (by omega),
      ih _ hd (fun d' hd' => hl d' (List.mem_cons_of_mem _ hd')) (by omega)⟩

/-! ## Rounded values are binary64 values -/

theorem lt_two_pow_bitLengthAux (fuel : Nat) : ∀ (a : Nat), a ≤ fuel →
    a < 2 ^ F64.bitLengthAux fuel a := by
  induction fuel with
  | zero => intro a h; simp [F64.bitLengthAux]; omega
  | succ f ih =>
    intro a hf
    unfold F64.bitLengthAux
    by_cases h0 : a = 0
    · simp [h0]
    · rw [if_neg h0]
      have := ih (a / 2) (by omega)
      rw [Nat.pow_succ]
      omega

theorem lt_two_pow_bitLength (a : Nat) : a < 2 ^ F64.bitLength a :=
  lt_two_pow_bitLengthAux a a (Nat.le_refl a)

theorem representable_of_mul (m k : Nat) (hm : m ≤ 2 ^ 53) (hv : m * 2 ^ k < 2 ^ 2098) :
    F64.representable ((m * 2 ^ k : Nat) : Int) := by
  unfold F64.representable
  rw [Int.natAbs_ofNat]
  refine ⟨hv, ?_⟩
  apply Nat.mod_eq_zero_of_dvd
  by_cases hlt : m < 2 ^ 53
  · have h1 : m * 2 ^ k < 2 ^ (53 + k) := by
      rw [Nat.pow_add]
      exact Nat.mul_lt_mul_of_pos_right hlt (Nat.two_pow_pos k)
    have := bitLength_le _ _ h1
    exact Nat.dvd_trans (Nat.pow_dvd_pow 2 (by omega)) (Nat.dvd_mul_left _ _)
  · have hm2 : m = 2 ^ 53 := by omega
    have h1 : m * 2 ^ k < 2 ^ (54 + k) := by
      rw [hm2, ← Nat.pow_add]
      exact Nat.pow_lt_pow_right (by decide) (by omega)
    have := bitLength_le _ _ h1
    rw [hm2, ← Nat.pow_add] at this ⊢
    exact Nat.pow_dvd_pow 2 (by omega)

theorem roundMag_representable (p q v : Nat) (h : F64.roundMag p q = some v) :
    F64.representable (v : Int) := by
  unfold F64.roundMag at h
  simp only [] at h
  generalize hk : F64.bitLength (p / q) - 53 = k at h
  have hm : p / (q * 2 ^ k) < 2 ^ 53 := by
    rw [← Nat.div_div_eq_div_mul]
    have ha := lt_two_pow_bitLength (p / q)
    rw [Nat.div_lt_iff_lt_mul (Nat.two_pow_pos k), ← Nat.pow_add]
    exact lt_of_lt_of_le ha (Nat.pow_le_pow_right (by decide) (by omega))
  generalize hm1 : (if q * 2 ^ k < 2 * (p % (q * 2 ^ k)) ∨
      (2 * (p % (q * 2 ^ k)) = q * 2 ^ k ∧ p / (q * 2 ^ k) % 2 = 1)
    then p / (q * 2 ^ k) + 1 else p / (q * 2 ^ k)) = m1 at h
  have hle : m1 ≤ 2 ^ 53 := by
    rw [← hm1]
    split <;> omega
  by_cases hv : m1 * 2 ^ k < 2 ^ 2098
  · rw [if_pos hv] at h
    injection h with h
    rw [← h]
    exact representable_of_mul _ _ hle hv
  · rw [if_neg hv] at h
    cases h

theorem round_valid (neg : Bool) (p q : Nat) : F64.valid (F64.round neg p q) := by
  unfold F64.round
  cases h : F64.roundMag p q with
  | none => cases neg <;> exact trivial
  | some v =>
    have hr := roundMag_representable p q v h
    cases neg
    · exact hr
    · show F64.representable (-(v : Int))
      unfold F64.representable at hr ⊢
      rwa [Int.natAbs_neg]

theorem add_valid (x y : F64) : F64.valid (F64.add x y) := by
  cases x <;> cases y <;> first | exact trivial | exact round_valid _ _ _

theorem TotalDuration_valid (w : WakatimeResponse) : F64.valid w.TotalDuration := by
  unfold WakatimeResponse.TotalDuration
  generalize hz : F64.finite 0 = z
  have hv : F64.valid z := by rw [← hz]; decide
  clear hz
  induction w.Data generalizing z with
  | nil => exact hv
  | cons r t ih => exact ih _ (add_valid _ _)

theorem ofDecimal_valid (m e : Int) (f : F64) (h : F64.ofDecimal m e = some f) : F64.valid f := by
  unfold F64.ofDecimal at h
  simp only [] at h
  split at h
  · rename_i v hv
    injection h with h
    rw [← h]
    have hr := roundMag_representable _ _ v hv
    show F64.representable _
    split
    · unfold F64.representable at hr ⊢
      rwa [Int.natAbs_neg]
    · exact hr
  · cases h

/-! ## Decoding of the body -/

theorem duration_not_other (k : String) (h : fieldMatch "duration" k = true) :
    fieldMatch "project" k = false ∧ fieldMatch "time" k = false := by
  unfold fieldMatch at h ⊢
  simp only [decide_eq_true_eq] at h
  rw [h]
  constructor <;> decide

theorem saveError_some (e err : String) : saveError (some e) err = some e := rfl

theorem decodeString_saved (v : Json) (cur e : String) :
    (decodeString v cur (some e)).2 = some e := by
  cases v <;> rfl

theorem decodeFloat64_saved (v : Json) (cur : F64) (e : String) :
    (decodeFloat64 v cur (some e)).2 = some e := by
  cases v with
  | num m x =>
    unfold decodeFloat64
    dsimp only
    cases F64.ofDecimal m x <;> rfl
  | _ => unfold decodeFloat64; rfl

theorem decodeDurationMember_saved (st : DurationResponse × Option String) (kv : String × Json)
    (e : String) (h : st.2 = some e) : (decodeDurationMember st kv).2 = some e := by
  unfold decodeDurationMember
  split_ifs
  · simp only [h]; exact decodeString_saved _ _ _
  · simp only [h]; exact decodeFloat64_saved _ _ _
  · simp only [h]; exact decodeFloat64_saved _ _ _
  · exact h

theorem foldl_decodeDurationMember_saved (ms : List (String × Json)) :
    ∀ (st : DurationResponse × Option String) (e : String), st.2 = some e →
      (ms.foldl decodeDurationMember st).2 = some e := by
  induction ms with
  | nil => intro st e h; exact h
  | cons kv t ih =>
    intro st e h
    exact ih _ e (decodeDurationMember_saved st kv e h)

theorem decodeDurationResponse_saved (v : Json) (cur : DurationResponse) (e : String) :
    (decodeDurationResponse v cur (some e)).2 = some e := by
  cases v with
  | obj kvs => exact foldl_decodeDurationMember_saved kvs _ e rfl
  | _ => rfl

theorem decodeElements_saved {α : Type} (dec : Json → α → Option String → α × Option String)
    (zero : α) (hdec : ∀ v cur e, (dec v cur (some e)).2 = some e) (xs : List Json) :
    ∀ (pool : List α) (e : String), (decodeElements dec zero xs pool (some e)).2.2 = some e := by
  induction xs with
  | nil => intro pool e; rfl
  | cons x t ih =>
    intro pool e
    simp only [decodeElements]
    rw [hdec]
    exact ih _ e

theorem decodeSlice_saved {α : Type} (dec : Json → α → Option String → α × Option String)
    (zero : α) (hdec : ∀ v cur e, (dec v cur (some e)).2 = some e) (ty : String) (v : Json)
    (s : Slice α) (e : String) : (decodeSlice dec zero ty v s (some e)).2 = some e := by
  cases v with
  | arr xs =>
    cases xs with
    | nil => rfl
    | cons x t => exact decodeElements_saved dec zero hdec (x :: t) _ e
  | _ => rfl

theorem decodeResponseMember_saved (st : Decoding) (kv : String × Json) (e : String)
    (h : st.saved = some e) : (decodeResponseMember st kv).saved = some e := by
  unfold decodeResponseMember
  split_ifs
  · simp only [h]; exact decodeSlice_saved _ _ decodeDurationResponse_saved _ _ _ _
  · simp only [h]; exact decodeSlice_saved _ _ decodeString_saved _ _ _ _
  · simp only [h]; exact decodeString_saved _ _ _
  · simp only [h]; exact decodeString_saved _ _ _
  · simp only [h]; exact decodeString_saved _ _ _
  · exact h

theorem foldl_decodeResponseMember_saved (kvs : List (String × Json)) :
    ∀ (st : Decoding) (e : String), st.saved = some e →
      (kvs.foldl decodeResponseMember st).saved = some e := by
  induction kvs with
  | nil => intro st e h; exact h
  | cons kv t ih =>
    intro st e h
    exact ih _ e (decodeResponseMember_saved st kv e h)


/-! ## When decoding saves no error -/

theorem saveError_ne_none (s : Option String) (err : String) : saveError s err ≠ none := by
  cases s <;> simp [saveError]

theorem decodeString_none_iff (v : Json) (cur : String) (s : Option String) :
    (decodeString v cur s).2 = none ↔ s = none ∧ isStringOrNull v = true := by
  cases v <;> simp [decodeString, isStringOrNull, saveError_ne_none]

theorem decodeFloat64_none_iff (v : Json) (cur : F64) (s : Option String) :
    (decodeFloat64 v cur s).2 = none ↔ s = none ∧ isNumberOrNull v = true := by
  cases v with
  | num m x =>
    unfold decodeFloat64 isNumberOrNull
    dsimp only
    cases F64.ofDecimal m x <;> simp [saveError_ne_none]
  | null => unfold decodeFloat64 isNumberOrNull; simp
  | bool b => unfold decodeFloat64 isNumberOrNull; simp [saveError_ne_none]
  | str b => unfold decodeFloat64 isNumberOrNull; simp [saveError_ne_none]
  | arr b => unfold decodeFloat64 isNumberOrNull; simp [saveError_ne_none]
  | obj b => unfold decodeFloat64 isNumberOrNull; simp [saveError_ne_none]

theorem decodeDurationMember_none_iff (st : DurationResponse × Option String)
    (kv : String × Json) :
    (decodeDurationMember st kv).2 = none ↔ st.2 = none ∧ fieldOK kv = true := by
  unfold decodeDurationMember fieldOK
  split_ifs
  · exact decodeString_none_iff _ _ _
  · exact decodeFloat64_none_iff _ _ _
  · exact decodeFloat64_none_iff _ _ _
  · simp

theorem foldl_decodeDurationMember_none_iff (ms : List (String × Json)) :
    ∀ (st : DurationResponse × Option String),
      (ms.foldl decodeDurationMember st).2 = none ↔ st.2 = none ∧ ms.all fieldOK = true := by
  induction ms with
  | nil => intro st; simp
  | cons kv t ih =>
    intro st
    simp only [List.foldl_cons, List.all_cons, Bool.and_eq_true]
    rw [ih, decodeDurationMember_none_iff]
    tauto

theorem decodeDurationResponse_none_iff (v : Json) (cur : DurationResponse)
    (s : Option String) :
    (decodeDurationResponse v cur s).2 = none ↔ s = none ∧ recordValueOK v = true := by
  cases v with
  | obj ms => exact foldl_decodeDurationMember_none_iff ms _
  | null => simp [decodeDurationResponse, recordValueOK]
  | _ => simp [decodeDurationResponse, recordValueOK, saveError_ne_none]

theorem decodeElements_none_iff {α : Type} (dec : Json → α → Option String → α × Option String)
    (zero : α) (ok : Json → Bool)
    (hdec : ∀ v cur s, (dec v cur s).2 = none ↔ s = none ∧ ok v = true) (xs : List Json) :
    ∀ (pool : List α) (s : Option String),
      (decodeElements dec zero xs pool s).2.2 = none ↔ s = none ∧ xs.all ok = true := by
  induction xs with
  | nil => intro pool s; simp [decodeElements]
  | cons x t ih =>
    intro pool s
    simp only [decodeElements, List.all_cons, Bool.and_eq_true]
    rw [ih, hdec]
    tauto

theorem decodeSlice_none_iff {α : Type} (dec : Json → α → Option String → α × Option String)
    (zero : α) (ok : Json → Bool)
    (hdec : ∀ v cur s, (dec v cur s).2 = none ↔ s = none ∧ ok v = true) (ty : String)
    (v : Json) (sl : Slice α) (s : Option String) :
    (decodeSlice dec zero ty v sl s).2 = none ↔ s = none ∧ sliceOK ok v = true := by
  cases v with
  | arr xs =>
    cases xs with
    | nil => simp [decodeSlice, sliceOK]
    | cons x t => exact decodeElements_none_iff dec zero ok hdec (x :: t) _ _
  | null => simp [decodeSlice, sliceOK]
  | _ => simp [decodeSlice, sliceOK, saveError_ne_none]

theorem decodeResponseMember_none_iff (st : Decoding) (kv : String × Json) :
    (decodeResponseMember st kv).saved = none ↔ st.saved = none ∧ topMemberOK kv = true := by
  unfold decodeResponseMember topMemberOK
  split_ifs
  · exact decodeSlice_none_iff _ _ _ decodeDurationResponse_none_iff _ _ _ _
  · exact decodeSlice_none_iff _ _ _ decodeString_none_iff _ _ _ _
  · exact decodeString_none_iff _ _ _
  · exact decodeString_none_iff _ _ _
  · exact decodeString_none_iff _ _ _
  · simp

theorem foldl_decodeResponseMember_none_iff (kvs : List (String × Json)) :
    ∀ (st : Decoding),
      (kvs.foldl decodeResponseMember st).saved = none ↔
        st.saved = none ∧ kvs.all topMemberOK = true := by
  induction kvs with
  | nil => intro st; simp
  | cons kv t ih =>
    intro st
    simp only [List.foldl_cons, List.all_cons, Bool.and_eq_true]
    rw [ih, decodeResponseMember_none_iff]
    tauto

theorem Unmarshal_accepts (b : Option Json) :
    (accepts b = true → ∃ response, Unmarshal b = .ok response) ∧
    (accepts b = false → ∃ e, Unmarshal b = .error e) := by
  cases b with
  | none => exact ⟨fun h => (by cases h), fun _ => ⟨_, rfl⟩⟩
  | some v =>
    cases v with
    | obj kvs =>
      have hiff := foldl_decodeResponseMember_none_iff kvs ⟨WakatimeResponse.zero, [], [], none⟩
      unfold Unmarshal accepts
      dsimp only
      cases hs : (kvs.foldl decodeResponseMember ⟨WakatimeResponse.zero, [], [], none⟩).saved with
      | none =>
        refine ⟨fun _ => ⟨_, rfl⟩, fun h => ?_⟩
        have := (hiff.mp hs).2
        rw [this] at h
        cases h
      | some e =>
        refine ⟨fun h => ?_, fun _ => ⟨e, rfl⟩⟩
        have := hiff.mpr ⟨rfl, h⟩
        rw [hs] at this
        cases this
    | null => exact ⟨fun _ => ⟨_, rfl⟩, fun h => by cases h⟩
    | bool x => exact ⟨fun h => (by cases h), fun _ => ⟨_, rfl⟩⟩
    | num x y => exact ⟨fun h => (by cases h), fun _ => ⟨_, rfl⟩⟩
    | str x => exact ⟨fun h => (by cases h), fun _ => ⟨_, rfl⟩⟩
    | arr x => exact ⟨fun h => (by cases h), fun _ => ⟨_, rfl⟩⟩

/-! ## The duration a record decodes to -/

theorem decodeDurationMember_other (st : DurationResponse × Option String) (kv : String × Json)
    (h : fieldMatch "duration" kv.1 = false) :
    (decodeDurationMember st kv).1.Duration = st.1.Duration := by
  unfold decodeDurationMember
  split_ifs <;> first | rfl | simp_all

theorem durationFrom_singleton (d : F64) (kv : String × Json) :
    durationFrom d [kv] =
      if fieldMatch "duration" kv.1 = true then
        (match kv.2 with
          | .num m e => (F64.ofDecimal m e).getD d
          | _ => d)
      else d := by
  obtain ⟨k, v⟩ := kv
  unfold durationFrom
  simp only [List.reverse_singleton, List.find?_cons, List.find?_nil, durationNumber, durationKey]
  by_cases hk : fieldMatch "duration" k = true
  · simp only [hk, Bool.true_and, if_true]
    cases v with
    | num m e =>
      dsimp only
      cases hd : F64.ofDecimal m e <;> simp [hd]
    | _ => simp
  · simp [hk]

theorem decodeDurationMember_duration (st : DurationResponse × Option String)
    (kv : String × Json) :
    (decodeDurationMember st kv).1.Duration = durationFrom st.1.Duration [kv] := by
  rw [durationFrom_singleton]
  by_cases hk : fieldMatch "duration" kv.1 = true
  · obtain ⟨h1, h2⟩ := duration_not_other kv.1 hk
    rw [if_pos hk]
    unfold decodeDurationMember
    simp only [h1, h2, hk, Bool.false_eq_true, if_false, if_true]
    obtain ⟨k, v⟩ := kv
    cases v with
    | num m e =>
      unfold decodeFloat64
      dsimp only
      cases hd : F64.ofDecimal m e <;> rfl
    | _ => unfold decodeFloat64; rfl
  · rw [if_neg hk]
    exact decodeDurationMember_other st kv (by simpa using hk)

theorem durationFrom_append_singleton (d : F64) (init : List (String × Json))
    (kv : String × Json) :
    durationFrom d (init ++ [kv]) = durationFrom (durationFrom d init) [kv] := by
  rw [durationFrom_singleton]
  unfold durationFrom
  rw [List.reverse_append, List.reverse_singleton, List.singleton_append, List.find?_cons]
  obtain ⟨k, v⟩ := kv
  simp only [durationNumber, durationKey]
  by_cases hk : fieldMatch "duration" k = true
  · simp only [hk, Bool.true_and, if_true]
    cases v with
    | num m e =>
      dsimp only
      cases hd : F64.ofDecimal m e <;> simp [hd]
    | _ => simp
  · simp [hk]

theorem foldl_decodeDurationMember_duration (ms : List (String × Json)) :
    ∀ (st : DurationResponse × Option String),
      (ms.foldl decodeDurationMember st).1.Duration = durationFrom st.1.Duration ms := by
  induction ms using List.reverseRecOn with
  | nil => intro st; rfl
  | append_singleton init kv ih =>
    intro st
    rw [List.foldl_append, List.foldl_cons, List.foldl_nil, decodeDurationMember_duration, ih,
      durationFrom_append_singleton]

theorem decodeDurationResponse_duration (x : Json) (s : Option String) :
    (decodeDurationResponse x DurationResponse.zero s).1.Duration = recordDuration x := by
  cases x with
  | obj ms => exact foldl_decodeDurationMember_duration ms _
  | _ => rfl

/-! ## The records a body decodes to -/

theorem decodeElements_durations (xs : List Json) : ∀ (s : Option String),
    (decodeElements decodeDurationResponse DurationResponse.zero xs [] s).1.map
      (fun r => r.Duration) = xs.map recordDuration := by
  induction xs with
  | nil => intro s; rfl
  | cons x t ih =>
    intro s
    simp only [decodeElements, List.head?_nil, Option.getD_none, List.tail_nil, List.map_cons]
    rw [ih, decodeDurationResponse_duration]

theorem decodeResponseMember_data (st : Decoding) (key : String) (xs : List Json)
    (hkey : fieldMatch "data" key = true)
    (h2 : st.response.Data = []) (h3 : st.spareData = []) :
    (decodeResponseMember st (key, .arr xs)).response.Data.map (fun r => r.Duration)
      = xs.map recordDuration := by
  unfold decodeResponseMember
  rw [if_pos hkey]
  simp only [h2, h3]
  cases xs with
  | nil => rfl
  | cons x t =>
    simp only [decodeSlice, List.append_nil]
    exact decodeElements_durations (x :: t) _

theorem decodeResponseMember_other (st : Decoding) (kv : String × Json)
    (h : fieldMatch "data" kv.1 = false) :
    (decodeResponseMember st kv).response.Data = st.response.Data ∧
    (decodeResponseMember st kv).spareData = st.spareData := by
  unfold decodeResponseMember
  rw [if_neg (by simp [h])]
  split_ifs <;> exact ⟨rfl, rfl⟩

theorem foldl_decodeResponseMember_other (kvs : List (String × Json)) :
    ∀ (st : Decoding), (∀ kv ∈ kvs, fieldMatch "data" kv.1 = false) →
      (kvs.foldl decodeResponseMember st).response.Data = st.response.Data ∧
      (kvs.foldl decodeResponseMember st).spareData = st.spareData := by
  induction kvs with
  | nil => intro st _; exact ⟨rfl, rfl⟩
  | cons kv t ih =>
    intro st h
    obtain ⟨h2, h3⟩ := decodeResponseMember_other st kv (h kv (List.mem_cons_self _ _))
    obtain ⟨g2, g3⟩ := ih (decodeResponseMember st kv)
      (fun kv' hkv' => h kv' (List.mem_cons_of_mem _ hkv'))
    exact ⟨g2.trans h2, g3.trans h3⟩

theorem Unmarshal_data (pre post : List (String × Json)) (key : String) (xs : List Json)
    (hkey : fieldMatch "data" key = true)
    (hpre : ∀ kv ∈ pre, fieldMatch "data" kv.1 = false)
    (hpost : ∀ kv ∈ post, fieldMatch "data" kv.1 = false) (response : WakatimeResponse)
    (h : Unmarshal (some (.obj (pre ++ (key, .arr xs) :: post))) = .ok response) :
    response.Data.map (fun r => r.Duration) = xs.map recordDuration := by
  obtain ⟨p2, p3⟩ := foldl_decodeResponseMember_other pre ⟨WakatimeResponse.zero, [], [], none⟩
    hpre
  have m2 := decodeResponseMember_data _ key xs hkey p2 p3
  obtain ⟨q2, -⟩ := foldl_decodeResponseMember_other post
    (decodeResponseMember (pre.foldl decodeResponseMember ⟨WakatimeResponse.zero, [], [], none⟩)
      (key, .arr xs)) hpost
  unfold Unmarshal at h
  simp only [List.foldl_append, List.foldl_cons] at h
  split at h
  · cases h
  · injection h with h
    rw [← h, q2, m2]

theorem memberOK_iff (kv : String × Json) :
    memberOK kv = true ↔ fieldMatch "data" kv.1 = false ∧ topMemberOK kv = true := by
  unfold memberOK
  simp

theorem accepts_of_members (pre post : List (String × Json)) (key : String) (xs : List Json)
    (hkey : fieldMatch "data" key = true)
    (hpre : ∀ kv ∈ pre, memberOK kv = true) (hpost : ∀ kv ∈ post, memberOK kv = true)
    (hxs : ∀ x ∈ xs, recordValueOK x = true) :
    accepts (some (.obj (pre ++ (key, .arr xs) :: post))) = true := by
  unfold accepts
  simp only [List.all_eq_true, List.mem_append, List.mem_cons]
  intro kv hkv
  rcases hkv with h | h | h
  · exact ((memberOK_iff kv).mp (hpre kv h)).2
  · rw [h]
    unfold topMemberOK
    simp only [hkey, if_true, sliceOK, List.all_eq_true]
    exact hxs
  · exact ((memberOK_iff kv).mp (hpost kv h)).2

/-! ## A malformed duration -/

theorem saveError_isSome (s : Option String) (err : String) : ∃ e, saveError s err = some e := by
  cases s with
  | none => exact ⟨err, rfl⟩
  | some e => exact ⟨e, rfl⟩

theorem decodeFloat64_malformed (v : Json) (cur : F64) (s : Option String)
    (h : isMalformedNumber v = true) : ∃ e, (decodeFloat64 v cur s).2 = some e := by
  cases v with
  | null => cases h
  | num m x => cases h
  | _ => unfold decodeFloat64; exact saveError_isSome _ _

theorem decodeDurationMember_malformed (st : DurationResponse × Option String) (k : String)
    (v : Json) (hk : fieldMatch "duration" k = true) (h : isMalformedNumber v = true) :
    ∃ e, (decodeDurationMember st (k, v)).2 = some e := by
  obtain ⟨h1, h2⟩ := duration_not_other k hk
  unfold decodeDurationMember
  simp only [h1, h2, hk, Bool.false_eq_true, if_false, if_true]
  exact decodeFloat64_malformed v _ _ h

theorem decodeRecord_malformed (ms1 ms2 : List (String × Json)) (k : String) (v : Json)
    (hk : fieldMatch "duration" k = true) (h : isMalformedNumber v = true)
    (cur : DurationResponse) (s : Option String) :
    ∃ e, (decodeDurationResponse (.obj (ms1 ++ (k, v) :: ms2)) cur s).2 = some e := by
  unfold decodeDurationResponse
  simp only [List.foldl_append, List.foldl_cons]
  obtain ⟨e, he⟩ := decodeDurationMember_malformed (ms1.foldl decodeDurationMember (cur, s)) k v hk h
  exact ⟨e, foldl_decodeDurationMember_saved ms2 _ e he⟩

theorem decodeElements_malformed {α : Type} (dec : Json → α → Option String → α × Option String)
    (zero : α) (hdec : ∀ v cur e, (dec v cur (some e)).2 = some e) (x : Json)
    (hx : ∀ cur s, ∃ e, (dec x cur s).2 = some e) (xs2 : List Json) (xs1 : List Json) :
    ∀ (pool : List α) (s : Option String),
      ∃ e, (decodeElements dec zero (xs1 ++ x :: xs2) pool s).2.2 = some e := by
  induction xs1 with
  | nil =>
    intro pool s
    obtain ⟨e, he⟩ := hx (pool.head?.getD zero) s
    refine ⟨e, ?_⟩
    simp only [List.nil_append, decodeElements]
    rw [he]
    exact decodeElements_saved dec zero hdec xs2 _ e
  | cons y t ih =>
    intro pool s
    simp only [List.cons_append, decodeElements]
    exact ih _ _

theorem Unmarshal_malformed (pre post : List (String × Json)) (key : String)
    (xs1 xs2 : List Json) (ms1 ms2 : List (String × Json)) (k : String) (v : Json)
    (hkey : fieldMatch "data" key = true) (hk : fieldMatch "duration" k = true)
    (h : isMalformedNumber v = true) :
    ∃ e, Unmarshal (some (.obj (pre ++
      (key, .arr (xs1 ++ .obj (ms1 ++ (k, v) :: ms2) :: xs2)) :: post))) = .error e := by
  have hmid : ∀ st : Decoding, ∃ e, (decodeResponseMember st
      (key, .arr (xs1 ++ .obj (ms1 ++ (k, v) :: ms2) :: xs2))).saved = some e := by
    intro st
    unfold decodeResponseMember
    rw [if_pos hkey]
    have hel := decodeElements_malformed decodeDurationResponse DurationResponse.zero
      decodeDurationResponse_saved (.obj (ms1 ++ (k, v) :: ms2))
      (fun cur s => decodeRecord_malformed ms1 ms2 k v hk h cur s) xs2 xs1
      (st.response.Data ++ st.spareData) st.saved
    cases xs1 with
    | nil => exact hel
    | cons y t => exact hel
  obtain ⟨e, he⟩ := hmid (pre.foldl decodeResponseMember ⟨WakatimeResponse.zero, [], [], none⟩)
  refine ⟨e, ?_⟩
  unfold Unmarshal
  simp only [List.foldl_append, List.foldl_cons]
  rw [foldl_decodeResponseMember_saved post _ e he]

theorem formatDuration_nonneg (c : F64.Conv) (n : Int) (h0 : 0 ≤ n)
    (h : n / (F64.scale : Int) ≤ 9223372036) :
    formatDuration c (F64.finite n) =
      .ok (toString ((n / (F64.scale : Int) + 30) / 60 / 60) ++ " hour " ++
        toString ((n / (F64.scale : Int) + 30) / 60 % 60) ++ " minute") := by
  have hq : 0 ≤ n / (F64.scale : Int) := Int.ediv_nonneg h0 (le_of_lt scale_pos)
  rw [formatDuration_eq, toInt64_finite_nonneg c n h0 (by omega)]
  rw [if_pos (by omega)]
  have e : roundMinutes (n / (F64.scale : Int)) = (n / (F64.scale : Int) + 30) / 60 := by
    unfold roundMinutes; rw [if_neg (by omega)]
  rw [e, Int.tdiv_eq_ediv (by omega) (by decide), Int.tmod_eq_emod (by omega) (by decide)]

theorem formatDuration_large (c : F64.Conv) (n : Int) (h0 : 0 ≤ n)
    (h : 9223372036 < n / (F64.scale : Int)) :
    ∃ e, formatDuration c (F64.finite n) = .error e := by
  rw [formatDuration_eq]
  by_cases h1 : n / (F64.scale : Int) < 2 ^ 63
  · rw [toInt64_finite_nonneg c n h0 h1, if_neg (by omega)]
    exact ⟨_, rfl⟩
  · have := toInt64_finite_large c n h0 (by omega)
    rw [if_neg (by omega)]
    exact ⟨_, rfl⟩

theorem directFormat_finite (n : Int) :
    directFormat (F64.finite n) =
      toString ((n / (F64.scale : Int) + 30) / 60 / 60) ++ " hour " ++
        toString ((n / (F64.scale : Int) + 30) / 60 % 60) ++ " minute" := by
  unfold directFormat
  simp only [F64.toRat]
  rw [floor_round_minute]

/-- C5. A total of exactly 3661 seconds is formatted as "1 hour 1 minute" and a
total of exactly 3600 seconds as "1 hour 0 minute", without error. -/
theorem formatDuration_3661_3600 (c : F64.Conv) :
    formatDuration c (F64.ofInt 3661) = .ok "1 hour 1 minute" ∧
    formatDuration c (F64.ofInt 3600) = .ok "1 hour 0 minute" := by
  cases c <;> exact ⟨rfl, rfl⟩

/-- C6. A response with an empty `Data`, whatever its other fields, has total
duration 0, and that total is formatted as "0 hour 0 minute" without error. -/
theorem empty_data_total (c : F64.Conv) (w : WakatimeResponse) (h : w.Data = []) :
    w.TotalDuration = F64.finite 0 ∧
    formatDuration c w.TotalDuration = .ok "0 hour 0 minute" := by
  have h0 : w.TotalDuration = F64.finite 0 := by
    unfold WakatimeResponse.TotalDuration; rw [h]; rfl
  rw [h0]
  refine ⟨rfl, ?_⟩
  cases c <;> rfl

/-- Instance of `empty_data_total`: an empty `Data` beside non-empty other fields. -/
theorem empty_data_total_witness :
    (⟨[], ["master"], "s", "e", "UTC"⟩ : WakatimeResponse).Data = [] ∧
    (⟨[], ["master"], "s", "e", "UTC"⟩ : WakatimeResponse).TotalDuration = F64.finite 0 ∧
    formatDuration .indefinite (⟨[], ["master"], "s", "e", "UTC"⟩ : WakatimeResponse).TotalDuration
      = .ok "0 hour 0 minute" :=
  ⟨rfl, empty_data_total .indefinite ⟨[], ["master"], "s", "e", "UTC"⟩ rfl⟩

/-- C9. For a non-negative total in the range `formatDuration` accepts, truncating to
whole seconds first changes nothing: the result is that of the floor of the total,
and both are the direct rounding of the float seconds to the nearest minute, half
up. -/
theorem formatDuration_truncation (c : F64.Conv) (n : Int) (h0 : 0 ≤ n)
    (hr : n / (F64.scale : Int) ≤ 9223372036) :
    formatDuration c (F64.finite n) = formatDuration c (F64.floor (F64.finite n)) ∧
    formatDuration c (F64.finite n) = .ok (directFormat (F64.finite n)) := by
  have hq : 0 ≤ n / (F64.scale : Int) := Int.ediv_nonneg h0 (le_of_lt scale_pos)
  have e1 : n / (F64.scale : Int) * (F64.scale : Int) / (F64.scale : Int) = n / (F64.scale : Int) :=
    Int.mul_ediv_cancel _ (ne_of_gt scale_pos)
  constructor
  · simp only [F64.floor]
    rw [formatDuration_nonneg c n h0 hr,
      formatDuration_nonneg c _ (Int.mul_nonneg hq (le_of_lt scale_pos)) (by rw [e1]; exact hr), e1]
  · rw [formatDuration_nonneg c n h0 hr, directFormat_finite]

/-- Instance of `formatDuration_truncation` at 89.5 seconds. -/
theorem formatDuration_truncation_witness :
    (0 : Int) ≤ ((179 * 2 ^ 1073 : Nat) : Int) ∧
    ((179 * 2 ^ 1073 : Nat) : Int) / (F64.scale : Int) ≤ 9223372036 ∧
    formatDuration .indefinite (F64.finite ((179 * 2 ^ 1073 : Nat) : Int))
      = formatDuration .indefinite (F64.floor (F64.finite ((179 * 2 ^ 1073 : Nat) : Int))) ∧
    formatDuration .indefinite (F64.finite ((179 * 2 ^ 1073 : Nat) : Int))
      = .ok (directFormat (F64.finite ((179 * 2 ^ 1073 : Nat) : Int))) :=
  ⟨by decide, by decide,
    formatDuration_truncation .indefinite ((179 * 2 ^ 1073 : Nat) : Int) (by decide) (by decide)⟩

theorem formatDuration_error_int64 (c : F64.Conv) (d : F64) :
    (∃ e, formatDuration c d = .error e) ↔
      9223372036 < F64.toInt64 c d ∨ F64.toInt64 c d < -9223372036 := by
  rw [formatDuration_eq]
  by_cases h : (F64.toInt64 c d).natAbs ≤ 9223372036
  · rw [if_pos h]
    constructor
    · rintro ⟨e, he⟩
      cases he
    · intro h2
      omega
  · rw [if_neg h]
    constructor
    · intro _
      omega
    · intro _
      exact ⟨_, rfl⟩

/-- C10, counterexample. Under the amd64 conversion a total of `2^63` seconds
converts to `-2^63`: `int64(d)` does not exceed 9223372036, and `formatDuration`
returns an error all the same. -/
theorem indefinite_conversion_fails :
    F64.valid (F64.ofInt 9223372036854775808) ∧
    0 ≤ (F64.ofInt 9223372036854775808).units ∧
    F64.toInt64 .indefinite (F64.ofInt 9223372036854775808) = -9223372036854775808 ∧
    ¬ (9223372036 < F64.toInt64 .indefinite (F64.ofInt 9223372036854775808)) ∧
    ∃ e, formatDuration .indefinite (F64.ofInt 9223372036854775808) = .error e :=
  ⟨by decide, by decide, by decide, by decide, _, rfl⟩

/-- C10, as the code has it. For a non-negative total `d`, `formatDuration` returns an
error exactly when the whole seconds of `d` (its floor) exceed 9223372036. In terms
of the converted value that is: exactly when `int64(d)` exceeds 9223372036 or lies
below -9223372036, the second arising where the conversion, out of range, gives
`-2^63`; below `2^63` seconds `int64(d)` is the floor. For `0 ≤ int64(d) ≤ 9223372036`
it returns a string, and the rounding to the minute does not overflow (it gives the
nearest minute and not the saturation value). An infinite total is an error. -/
theorem formatDuration_error_iff (c : F64.Conv) (n : Int) (h0 : 0 ≤ n) :
    ((∃ e, formatDuration c (F64.finite n) = .error e) ↔ 9223372036 < n / (F64.scale : Int)) ∧
    ((∃ e, formatDuration c (F64.finite n) = .error e) ↔
      9223372036 < F64.toInt64 c (F64.finite n) ∨ F64.toInt64 c (F64.finite n) < -9223372036) ∧
    (n / (F64.scale : Int) < 2 ^ 63 → F64.toInt64 c (F64.finite n) = n / (F64.scale : Int)) ∧
    (0 ≤ F64.toInt64 c (F64.finite n) → F64.toInt64 c (F64.finite n) ≤ 9223372036 →
      (∃ s, formatDuration c (F64.finite n) = .ok s) ∧
      Round (F64.toInt64 c (F64.finite n) * Second) Minute
        = (F64.toInt64 c (F64.finite n) + 30) / 60 * Minute ∧
      Round (F64.toInt64 c (F64.finite n) * Second) Minute < maxDuration) ∧
    (n / (F64.scale : Int) ≤ 9223372036 →
      (∃ s, formatDuration c (F64.finite n) = .ok s) ∧
      Round (n / (F64.scale : Int) * Second) Minute = (n / (F64.scale : Int) + 30) / 60 * Minute ∧
      Round (n / (F64.scale : Int) * Second) Minute < maxDuration) ∧
    (∃ e, formatDuration c F64.posInf = .error e) := by
  have hq : 0 ≤ n / (F64.scale : Int) := Int.ediv_nonneg h0 (le_of_lt scale_pos)
  have hround : ∀ t : Int, 0 ≤ t → t ≤ 9223372036 →
      Round (t * Second) Minute = (t + 30) / 60 * Minute ∧
      Round (t * Second) Minute < maxDuration := by
    intro t ht0 ht
    refine ⟨Round_seconds_nonneg _ ht0 ht, ?_⟩
    rw [Round_seconds_nonneg _ ht0 ht]
    unfold Minute Second maxDuration
    omega
  refine ⟨⟨?_, formatDuration_large c n h0⟩, formatDuration_error_int64 c _,
    toInt64_finite_nonneg c n h0, ?_, ?_, ?_⟩
  · rintro ⟨e, he⟩
    by_contra hle
    rw [formatDuration_nonneg c n h0 (by omega)] at he
    cases he
  · intro ht0 ht
    refine ⟨?_, hround _ ht0 ht⟩
    rw [formatDuration_eq, if_pos (by omega)]
    exact ⟨_, rfl⟩
  · intro hle
    exact ⟨⟨_, formatDuration_nonneg c n h0 hle⟩, hround _ hq hle⟩
  · cases c <;> exact ⟨_, rfl⟩

/-- Instance of `formatDuration_error_iff` at 9223372037 seconds. -/
theorem formatDuration_error_iff_witness :
    (0 : Int) ≤ ((9223372037 * 2 ^ 1074 : Nat) : Int) ∧
    ((∃ e, formatDuration .indefinite (F64.finite ((9223372037 * 2 ^ 1074 : Nat) : Int))
        = .error e) ↔
      9223372036 < ((9223372037 * 2 ^ 1074 : Nat) : Int) / (F64.scale : Int)) :=
  ⟨by decide,
    (formatDuration_error_iff .indefinite ((9223372037 * 2 ^ 1074 : Nat) : Int) (by decide)).1⟩

/-- C7, as the code has it. In the query that `doGet` builds, the caller's value for
a key is appended to the values the base URL already holds for it: both are kept,
the pre-existing ones first, so the first value of the key (`Get`) is still the
pre-existing one. A key of the base URL alone keeps its values, a key of the caller
alone holds the caller's value. `params` is a Go map: its keys are distinct. -/
theorem addParams_appends (q : Values) (params : List (String × String))
    (hnd : (params.map (fun kv => kv.1)).Nodup) (k : String) :
    (∀ v, (k, v) ∈ params → addParams q params k = q k ++ [v]) ∧
    ((∀ v, (k, v) ∉ params) → addParams q params k = q k) ∧
    (q k ≠ [] → (addParams q params).Get k = q.Get k) := by
  refine ⟨?_, ?_, ?_⟩
  · intro v hv
    rw [addParams_apply, filter_key_of_mem params k v hnd hv]
  · intro hv
    rw [addParams_apply, filter_key_of_not_mem params k hv, List.append_nil]
  · intro hne
    unfold Values.Get
    rw [addParams_apply]
    cases hq : q k with
    | nil => exact absurd hq hne
    | cons a as => rfl

/-- Instance of `addParams_appends`: the two parameters of `Current` on a base query that already holds a date. -/
theorem addParams_appends_witness :
    ([("api_key", "secret"), ("date", "2020-01-02")].map (fun kv => kv.1)).Nodup ∧
    addParams (fun k => if k = "date" then ["1999-12-31"] else [])
      [("api_key", "secret"), ("date", "2020-01-02")] "date" = ["1999-12-31", "2020-01-02"] :=
  ⟨by decide,
    (addParams_appends (fun k => if k = "date" then ["1999-12-31"] else [])
      [("api_key", "secret"), ("date", "2020-01-02")] (by decide) "date").1 "2020-01-02"
      (by decide)⟩

/-- C7, counterexample. The base query holds `date=1999-12-31` and the caller passes
`date=2020-01-02`: the merged query holds both values, the pre-existing one first, and
its first value is the pre-existing one; the caller's value has not replaced it. -/
theorem addParams_collision :
    addParams (fun k => if k = "date" then ["1999-12-31"] else [])
      [("api_key", "secret"), ("date", "2020-01-02")] "date" = ["1999-12-31", "2020-01-02"] ∧
    (addParams (fun k => if k = "date" then ["1999-12-31"] else [])
      [("api_key", "secret"), ("date", "2020-01-02")]).Get "date" = "1999-12-31" ∧
    (addParams (fun k => if k = "date" then ["1999-12-31"] else [])
      [("api_key", "secret"), ("date", "2020-01-02")]).Get "date" ≠ "2020-01-02" := by
  refine ⟨by decide, by decide, by decide⟩

/-! ## Current -/

theorem formatDuration_ne_na (c : F64.Conv) (d : F64) (s : String)
    (h : formatDuration c d = .ok s) : s ≠ "n/a" := by
  rw [formatDuration_eq] at h
  split at h
  · injection h with h
    intro e
    have hl := congrArg String.length e
    rw [← h] at hl
    simp only [String.length_append] at hl
    have h7 : " minute".length = 7 := by decide
    have h3 : "n/a".length = 3 := by decide
    omega
  · cases h

theorem parseBody_eq (w : WClient) (c : F64.Conv) (b : Option Json) (response : WakatimeResponse)
    (h : Unmarshal b = .ok response) :
    w.parseBody c b = formatDuration c response.TotalDuration := by
  unfold WClient.parseBody
  rw [h]
  simp only []
  cases formatDuration c response.TotalDuration <;> rfl

theorem parseBody_error (w : WClient) (c : F64.Conv) (b : Option Json) (e : String)
    (h : Unmarshal b = .error e) : w.parseBody c b = .error e := by
  unfold WClient.parseBody
  rw [h]

theorem doGet_eq (w : WClient) (env : Env) (c : F64.Conv) (endpoint : String)
    (params headers : List (String × String)) :
    (w.received env endpoint params headers = none →
      ∃ e, w.doGet env c endpoint params headers = .error e) ∧
    (∀ resp, w.received env endpoint params headers = some resp →
      w.doGet env c endpoint params headers =
        if resp.StatusCode ≠ 200 then .error ("NOT OK " ++ resp.Status)
        else match resp.Body with
          | .error err => .error err
          | .ok b => w.parseBody c b) := by
  unfold WClient.received WClient.doGet
  simp only []
  cases env.Parse (w.host ++ endpoint) with
  | error e => exact ⟨fun _ => ⟨e, rfl⟩, fun _ h => by cases h⟩
  | ok raw =>
    dsimp only
    cases env.ParseQuery raw with
    | error e => exact ⟨fun _ => ⟨e, rfl⟩, fun _ h => by cases h⟩
    | ok q =>
      dsimp only
      cases env.NewRequest (w.host ++ endpoint) (addParams q params) with
      | error e => exact ⟨fun _ => ⟨e, rfl⟩, fun _ h => by cases h⟩
      | ok u =>
        dsimp only
        cases w.client ⟨w.host ++ endpoint, addParams q params, headers⟩ with
        | error e => exact ⟨fun _ => ⟨e, rfl⟩, fun _ h => by cases h⟩
        | ok resp =>
          dsimp only
          refine ⟨fun h => (by cases h), fun r h => ?_⟩
          simp only [Option.some.injEq] at h
          subst h
          split
          · rfl
          · cases resp.Body with
            | error e => rfl
            | ok b =>
              dsimp only
              cases w.parseBody c b <;> rfl

theorem Current_eq (w : WClient) (env : Env) (c : F64.Conv) :
    (w.received env "/users/current/durations"
        [("api_key", w.apiKey), ("date", env.Today)] [] = none → w.Current env c = "n/a") ∧
    (∀ resp, w.received env "/users/current/durations"
        [("api_key", w.apiKey), ("date", env.Today)] [] = some resp →
      w.Current env c =
        if resp.StatusCode ≠ 200 then "n/a"
        else match resp.Body with
          | .error _ => "n/a"
          | .ok b =>
            match w.parseBody c b with
            | .error _ => "n/a"
            | .ok s => s) := by
  obtain ⟨hnone, hsome⟩ := doGet_eq w env c "/users/current/durations"
    [("api_key", w.apiKey), ("date", env.Today)] []
  constructor
  · intro hr
    obtain ⟨e, he⟩ := hnone hr
    unfold WClient.Current
    simp only []
    rw [he]
  · intro resp hr
    unfold WClient.Current
    simp only []
    rw [hsome resp hr]
    by_cases hs : resp.StatusCode ≠ 200
    · rw [if_pos hs, if_pos hs]
    · rw [if_neg hs, if_neg hs]
      cases resp.Body with
      | error e => rfl
      | ok b => rfl

/-- C4, counterexample. The service answers 200 with the body `null`, which is not
of the expected shape (it is not a JSON object): `Current` returns "0 hour 0 minute",
not "n/a". -/
theorem null_body_formatted :
    expectedShape .null = false ∧
    (⟨"key", "https://wakatime.com/api/v1",
        fun _ => .ok ⟨200, "200 OK", .ok (some .null)⟩⟩ : WClient).Current
      ⟨fun _ => .ok "", fun _ => .ok (fun _ => []), fun _ _ => .ok (), "2020-01-02"⟩
      .indefinite = "0 hour 0 minute" :=
  ⟨rfl, rfl⟩

/-- C4, as the code has it. With the HTTP exchange as an input, `Current` returns
"n/a" when the request is not sent or the transport fails, when the status is not
200, when the body cannot be read, when the body is not accepted by the decoder
(it is not valid JSON, or not an object or `null`, or holds in a known field a value
that is neither of the field's type nor `null`), and when `formatDuration` fails on
the decoded total. In the one remaining case, and only then, it returns the
formatted duration, which is never "n/a". -/
theorem Current_na (w : WClient) (env : Env) (c : F64.Conv) :
    (w.received env "/users/current/durations"
        [("api_key", w.apiKey), ("date", env.Today)] [] = none → w.Current env c = "n/a") ∧
    (∀ resp, w.received env "/users/current/durations"
        [("api_key", w.apiKey), ("date", env.Today)] [] = some resp →
      (resp.StatusCode ≠ 200 → w.Current env c = "n/a") ∧
      (∀ e, resp.StatusCode = 200 → resp.Body = .error e → w.Current env c = "n/a") ∧
      (∀ b, resp.StatusCode = 200 → resp.Body = .ok b → accepts b = false →
        (∃ e, Unmarshal b = .error e) ∧ w.Current env c = "n/a") ∧
      (∀ b, resp.StatusCode = 200 → resp.Body = .ok b → accepts b = true →
        ∃ response, Unmarshal b = .ok response ∧
          ((∃ e, formatDuration c response.TotalDuration = .error e) →
            w.Current env c = "n/a") ∧
          (∀ s, formatDuration c response.TotalDuration = .ok s →
            w.Current env c = s ∧ s ≠ "n/a"))) ∧
    (w.Current env c ≠ "n/a" →
      ∃ resp b response s, w.received env "/users/current/durations"
          [("api_key", w.apiKey), ("date", env.Today)] [] = some resp ∧
        resp.StatusCode = 200 ∧ resp.Body = .ok b ∧ accepts b = true ∧
        Unmarshal b = .ok response ∧
        formatDuration c response.TotalDuration = .ok s ∧ w.Current env c = s) := by
  obtain ⟨hnone, hsome⟩ := Current_eq w env c
  refine ⟨hnone, ?_, ?_⟩
  · intro resp hr
    have hc := hsome resp hr
    refine ⟨?_, ?_, ?_, ?_⟩
    · intro hs
      rw [hc, if_pos hs]
    · intro e hs hb
      rw [hc, if_neg (by simpa using hs), hb]
    · intro b hs hb ha
      obtain ⟨e, he⟩ := (Unmarshal_accepts b).2 ha
      refine ⟨⟨e, he⟩, ?_⟩
      rw [hc, if_neg (by simpa using hs), hb]
      simp only []
      rw [parseBody_error w c b e he]
    · intro b hs hb ha
      obtain ⟨response, hu⟩ := (Unmarshal_accepts b).1 ha
      refine ⟨response, hu, ?_, ?_⟩
      · rintro ⟨e, he⟩
        rw [hc, if_neg (by simpa using hs), hb]
        simp only []
        rw [parseBody_eq w c b response hu, he]
      · intro s hf
        refine ⟨?_, formatDuration_ne_na c _ s hf⟩
        rw [hc, if_neg (by simpa using hs), hb]
        simp only []
        rw [parseBody_eq w c b response hu, hf]
  · intro hne
    cases hr : w.received env "/users/current/durations"
        [("api_key", w.apiKey), ("date", env.Today)] [] with
    | none => exact absurd (hnone hr) hne
    | some resp =>
      have hc := hsome resp hr
      by_cases hs : resp.StatusCode ≠ 200
      · rw [hc, if_pos hs] at hne
        exact absurd rfl hne
      · rw [if_neg hs] at hc
        cases hb : resp.Body with
        | error e =>
          rw [hc, hb] at hne
          exact absurd rfl hne
        | ok b =>
          rw [hb] at hc
          simp only [] at hc
          cases ha : accepts b with
          | false =>
            obtain ⟨e, he⟩ := (Unmarshal_accepts b).2 ha
            rw [parseBody_error w c b e he] at hc
            exact absurd hc hne
          | true =>
            obtain ⟨response, hu⟩ := (Unmarshal_accepts b).1 ha
            rw [parseBody_eq w c b response hu] at hc
            cases hf : formatDuration c response.TotalDuration with
            | error e =>
              rw [hf] at hc
              exact absurd hc hne
            | ok s =>
              rw [hf] at hc
              exact ⟨resp, b, response, s, rfl, by simpa using hs, hb, ha, hu, hf, hc⟩

/-- Instance of `Current_na`: the service answers 200 with one record of 3600
seconds, and `Current` returns the formatted duration. -/
theorem Current_na_witness :
    ∃ response,
      Unmarshal (some (.obj [("data", .arr [.obj [("duration", .num 3600 0)]])])) = .ok response ∧
      ((∃ e, formatDuration .indefinite response.TotalDuration = .error e) →
        (⟨"key", "https://wakatime.com/api/v1", fun _ => .ok ⟨200, "200 OK",
            .ok (some (.obj [("data", .arr [.obj [("duration", .num 3600 0)]])]))⟩⟩ :
          WClient).Current
          ⟨fun _ => .ok "", fun _ => .ok (fun _ => []), fun _ _ => .ok (), "2020-01-02"⟩
          .indefinite = "n/a") ∧
      (∀ s, formatDuration .indefinite response.TotalDuration = .ok s →
        (⟨"key", "https://wakatime.com/api/v1", fun _ => .ok ⟨200, "200 OK",
            .ok (some (.obj [("data", .arr [.obj [("duration", .num 3600 0)]])]))⟩⟩ :
          WClient).Current
          ⟨fun _ => .ok "", fun _ => .ok (fun _ => []), fun _ _ => .ok (), "2020-01-02"⟩
          .indefinite = s ∧ s ≠ "n/a") :=
  ((Current_na
    ⟨"key", "https://wakatime.com/api/v1", fun _ => .ok ⟨200, "200 OK",
      .ok (some (.obj [("data", .arr [.obj [("duration", .num 3600 0)]])]))⟩⟩
    ⟨fun _ => .ok "", fun _ => .ok (fun _ => []), fun _ _ => .ok (), "2020-01-02"⟩
    .indefinite).2.1
    ⟨200, "200 OK", .ok (some (.obj [("data", .arr [.obj [("duration", .num 3600 0)]])]))⟩
    rfl).2.2.2 _ rfl rfl (by decide)

/-! ## Negative totals -/

theorem toInt64_finite_inrange (c : F64.Conv) (n : Int)
    (h : -2 ^ 63 ≤ Int.tdiv n (F64.scale : Int) ∧ Int.tdiv n (F64.scale : Int) < 2 ^ 63) :
    F64.toInt64 c (F64.finite n) = Int.tdiv n (F64.scale : Int) := by
  simp only [F64.toInt64]
  rw [if_pos h]

theorem toInt64_finite_below (c : F64.Conv) (n : Int)
    (h : Int.tdiv n (F64.scale : Int) < -2 ^ 63) :
    F64.toInt64 c (F64.finite n) = -2 ^ 63 := by
  simp only [F64.toInt64]
  rw [if_neg (by omega)]
  cases c
  · rfl
  · simp only []
    rw [if_pos (by omega)]

theorem formatDuration_nonpos (c : F64.Conv) (n : Int)
    (h0 : Int.tdiv n (F64.scale : Int) ≤ 0) (h : -9223372036 ≤ Int.tdiv n (F64.scale : Int)) :
    formatDuration c (F64.finite n) =
      .ok (toString (-((-(Int.tdiv n (F64.scale : Int)) + 30) / 60 / 60)) ++ " hour " ++
        toString (-((-(Int.tdiv n (F64.scale : Int)) + 30) / 60 % 60)) ++ " minute") := by
  rw [formatDuration_eq, toInt64_finite_inrange c n (by constructor <;> omega)]
  generalize Int.tdiv n (F64.scale : Int) = t at h0 h
  rw [if_pos (by omega)]
  have e : roundMinutes t = -((-t + 30) / 60) := by
    unfold roundMinutes
    by_cases ht : t < 0
    · rw [if_pos ht]
    · have : t = 0 := by omega
      subst this
      rfl
  rw [e, tdiv_neg_left _ _ (by omega) (by decide), tmod_neg_left _ _ (by omega) (by decide)]

theorem formatDuration_below (c : F64.Conv) (n : Int)
    (h : Int.tdiv n (F64.scale : Int) < -9223372036) :
    ∃ e, formatDuration c (F64.finite n) = .error e := by
  rw [formatDuration_eq]
  by_cases h1 : -2 ^ 63 ≤ Int.tdiv n (F64.scale : Int)
  · rw [toInt64_finite_inrange c n (by constructor <;> omega), if_neg (by omega)]
    exact ⟨_, rfl⟩
  · rw [toInt64_finite_below c n (by omega), if_neg (by decide)]
    exact ⟨_, rfl⟩

/-- C2, counterexample. A total of -3600 seconds is negative, yet `formatDuration`
returns the string "-1 hour 0 minute" and no error, and `parseBody` returns that
string for the body `{"data":[{"duration":-3600}]}`. -/
theorem negative_total_formatted :
    F64.valid (F64.ofInt (-3600)) ∧ (F64.ofInt (-3600)).toRat < 0 ∧
    formatDuration .indefinite (F64.ofInt (-3600)) = .ok "-1 hour 0 minute" ∧
    (⟨"", "", fun _ => .error ""⟩ : WClient).parseBody .indefinite
      (some (.obj [("data", .arr [.obj [("duration", .num (-3600) 0)]])])) =
      .ok "-1 hour 0 minute" :=
  ⟨by decide, by
    have hs : (0 : ℚ) < ((F64.scale : Nat) : ℚ) := by unfold F64.scale; positivity
    simp only [F64.ofInt, F64.toRat]
    push_cast
    rw [mul_div_assoc, div_self (ne_of_gt hs)]
    norm_num, rfl, rfl⟩

/-- C2, as the code has it. For a negative total, `formatDuration` fails exactly when
the second count truncated toward zero is below -9223372036; from -9223372036 up it
returns a string, the total rounded to the nearest minute (halves away from zero)
with an hour count and a minute count that are zero or negative. It fails for an
infinite total. `parseBody` returns whatever `formatDuration` returns for the decoded
total: an error in the first case, the string with the negative counts in the
second. -/
theorem formatDuration_negative (c : F64.Conv) (n : Int) (hneg : n < 0) :
    ((∃ e, formatDuration c (F64.finite n) = .error e) ↔
      Int.tdiv n (F64.scale : Int) < -9223372036) ∧
    (-9223372036 ≤ Int.tdiv n (F64.scale : Int) →
      ∃ h m : Int, formatDuration c (F64.finite n) =
          .ok (toString h ++ " hour " ++ toString m ++ " minute") ∧
        h ≤ 0 ∧ -59 ≤ m ∧ m ≤ 0 ∧
        h * 60 + m = -((-(Int.tdiv n (F64.scale : Int)) + 30) / 60)) ∧
    (∃ e, formatDuration c F64.negInf = .error e) ∧
    (∃ e, formatDuration c F64.posInf = .error e) ∧
    (∀ (w : WClient) (b : Option Json) (response : WakatimeResponse),
      Unmarshal b = .ok response → response.TotalDuration = F64.finite n →
      w.parseBody c b = formatDuration c (F64.finite n)) := by
  have ht : Int.tdiv n (F64.scale : Int) ≤ 0 := by
    have := tdiv_neg_left (-n) (F64.scale : Int) (by omega) (le_of_lt scale_pos)
    rw [neg_neg] at this
    rw [this]
    have := Int.ediv_nonneg (show 0 ≤ -n by omega) (le_of_lt scale_pos)
    omega
  refine ⟨⟨?_, formatDuration_below c n⟩, ?_, ?_, ?_, ?_⟩
  · rintro ⟨e, he⟩
    by_contra hle
    rw [formatDuration_nonpos c n ht (by omega)] at he
    cases he
  · intro hle
    refine ⟨_, _, formatDuration_nonpos c n ht hle, ?_, ?_, ?_, ?_⟩ <;> omega
  · cases c <;> exact ⟨_, rfl⟩
  · cases c <;> exact ⟨_, rfl⟩
  · intro w b response hu hd
    rw [parseBody_eq w c b response hu, hd]

/-- Instance of `formatDuration_negative` at -61 seconds. -/
theorem formatDuration_negative_witness :
    -((61 * 2 ^ 1074 : Nat) : Int) < 0 ∧
    ((∃ e, formatDuration .saturating (F64.finite (-((61 * 2 ^ 1074 : Nat) : Int))) = .error e) ↔
      Int.tdiv (-((61 * 2 ^ 1074 : Nat) : Int)) (F64.scale : Int) < -9223372036) :=
  ⟨by decide, (formatDuration_negative .saturating (-((61 * 2 ^ 1074 : Nat) : Int)) (by decide)).1⟩

/-! ## Totals of non-negative durations -/

theorem add_nonneg_cases (a b : Int) (ha : 0 ≤ a) (hb : 0 ≤ b) :
    F64.add (F64.finite a) (F64.finite b) = F64.posInf ∨
    ∃ s : Int, 0 ≤ s ∧ F64.add (F64.finite a) (F64.finite b) = F64.finite s := by
  show F64.round (decide (a + b < 0)) (a + b).natAbs 1 = _ ∨ ∃ s : Int, 0 ≤ s ∧
    F64.round (decide (a + b < 0)) (a + b).natAbs 1 = _
  have hneg : ¬ (a + b < 0) := by omega
  unfold F64.round
  simp only [hneg, decide_False, Bool.false_eq_true, if_false]
  cases F64.roundMag (a + b).natAbs 1 with
  | none => exact Or.inl rfl
  | some v => exact Or.inr ⟨v, Int.ofNat_nonneg v, rfl⟩

theorem foldl_add_nonneg : ∀ (l : List DurationResponse) (acc : F64),
    (acc = F64.posInf ∨ ∃ s : Int, 0 ≤ s ∧ acc = F64.finite s) →
    (∀ r ∈ l, ∃ n : Int, r.Duration = F64.finite n ∧ 0 ≤ n) →
    (l.foldl (fun t d => F64.add t d.Duration) acc = F64.posInf ∨
      ∃ s : Int, 0 ≤ s ∧ l.foldl (fun t d => F64.add t d.Duration) acc = F64.finite s) := by
  intro l
  induction l with
  | nil => intro acc h _; exact h
  | cons r l ih =>
    intro acc hacc hl
    obtain ⟨n, hn, hn0⟩ := hl r (List.mem_cons_self _ _)
    simp only [List.foldl_cons, hn]
    apply ih _ _ (fun r' hr' => hl r' (List.mem_cons_of_mem _ hr'))
    rcases hacc with h | ⟨s, hs0, hs⟩
    · rw [h]; exact Or.inl rfl
    · rw [hs]; exact add_nonneg_cases s n hs0 hn0

theorem TotalDuration_nonneg (w : WakatimeResponse)
    (hw : ∀ r ∈ w.Data, ∃ n : Int, r.Duration = F64.finite n ∧ 0 ≤ n) :
    w.TotalDuration = F64.posInf ∨ ∃ s : Int, 0 ≤ s ∧ w.TotalDuration = F64.finite s :=
  foldl_add_nonneg w.Data (F64.finite 0) (Or.inr ⟨0, le_refl 0, rfl⟩) hw

/-- C1, counterexample. First, the list holding the single non-negative finite
duration 9223372037 has that total, and `formatDuration` returns an error for it.
Second, the durations 29 and `1 - 2^-53` have an exact sum below 30 seconds, which
rounds to 0 minutes, but accumulate to the float 30, which is formatted as
"0 hour 1 minute". -/
theorem total_formatting_fails :
    (F64.valid (F64.ofInt 9223372037) ∧
      (⟨[⟨"", F64.finite 0, F64.ofInt 9223372037⟩], [], "", "", ""⟩ :
        WakatimeResponse).TotalDuration = F64.ofInt 9223372037 ∧
      ∃ e, formatDuration .saturating
        (⟨[⟨"", F64.finite 0, F64.ofInt 9223372037⟩], [], "", "", ""⟩ :
          WakatimeResponse).TotalDuration = .error e) ∧
    (F64.valid (F64.ofInt 29) ∧ F64.valid (F64.finite (((2 ^ 53 - 1) * 2 ^ 1021 : Nat) : Int)) ∧
      (([F64.ofInt 29, F64.finite (((2 ^ 53 - 1) * 2 ^ 1021 : Nat) : Int)].map F64.units).sum
        < 30 * (F64.scale : Int)) ∧
      ⌊((([F64.ofInt 29, F64.finite (((2 ^ 53 - 1) * 2 ^ 1021 : Nat) : Int)].map F64.units).sum
          : Int) : ℚ) / (F64.scale : ℚ) / 60 + 1 / 2⌋ = 0 ∧
      (⟨[⟨"", F64.finite 0, F64.ofInt 29⟩,
          ⟨"", F64.finite 0, F64.finite (((2 ^ 53 - 1) * 2 ^ 1021 : Nat) : Int)⟩],
        [], "", "", ""⟩ : WakatimeResponse).TotalDuration = F64.ofInt 30 ∧
      formatDuration .saturating
        (⟨[⟨"", F64.finite 0, F64.ofInt 29⟩,
            ⟨"", F64.finite 0, F64.finite (((2 ^ 53 - 1) * 2 ^ 1021 : Nat) : Int)⟩],
          [], "", "", ""⟩ : WakatimeResponse).TotalDuration = .ok "0 hour 1 minute") :=
  ⟨⟨by decide, rfl, _, rfl⟩,
    ⟨by decide, by decide, by decide, by rw [floor_round_minute]; decide, by decide, rfl⟩⟩

/-- C1, as the code has it. For a list of non-negative finite durations,
`TotalDuration` returns the float64 accumulation `s` of the list, left to right from
zero, each addition rounded; it is the exact sum of the list when no addition rounds,
and it is non-negative or `+Inf`. When `s` is finite and below 9223372037 seconds,
`formatDuration` succeeds and yields "h hour m minute" with `h*60 + m` the total `s`
rounded to the nearest whole minute (half up) and `0 ≤ m ≤ 59`; for a larger or
infinite `s` it returns an error. -/
theorem format_total_nonneg (c : F64.Conv) (w : WakatimeResponse)
    (hw : ∀ r ∈ w.Data, ∃ n : Int, r.Duration = F64.finite n ∧ 0 ≤ n) :
    w.TotalDuration = (w.Data.map (fun r => r.Duration)).foldl F64.add (F64.finite 0) ∧
    (exactSteps (F64.finite 0) (w.Data.map (fun r => r.Duration)) = true →
      w.TotalDuration = F64.finite ((w.Data.map (fun r => r.Duration.units)).sum) ∧
      ((w.Data.map (fun r => r.Duration.units)).sum / (F64.scale : Int) ≤ 9223372036 →
        ∃ h m : Int, formatDuration c w.TotalDuration =
            .ok (toString h ++ " hour " ++ toString m ++ " minute") ∧
          h * 60 + m = ⌊(((w.Data.map (fun r => r.Duration.units)).sum : Int) : ℚ)
            / (F64.scale : ℚ) / 60 + 1 / 2⌋ ∧ 0 ≤ m ∧ m ≤ 59)) ∧
    (w.TotalDuration = F64.posInf ∨ ∃ s : Int, 0 ≤ s ∧ w.TotalDuration = F64.finite s) ∧
    (∀ s : Int, w.TotalDuration = F64.finite s → s / (F64.scale : Int) ≤ 9223372036 →
      ∃ h m : Int, formatDuration c w.TotalDuration =
          .ok (toString h ++ " hour " ++ toString m ++ " minute") ∧
        h * 60 + m = ⌊w.TotalDuration.toRat / 60 + 1 / 2⌋ ∧ 0 ≤ m ∧ m ≤ 59) ∧
    (∀ s : Int, w.TotalDuration = F64.finite s → 9223372036 < s / (F64.scale : Int) →
      ∃ e, formatDuration c w.TotalDuration = .error e) ∧
    (w.TotalDuration = F64.posInf → ∃ e, formatDuration c w.TotalDuration = .error e) := by
  have hnn := TotalDuration_nonneg w hw
  have hnonneg : ∀ s : Int, w.TotalDuration = F64.finite s → 0 ≤ s := by
    intro s hs
    rcases hnn with h | ⟨s', hs0, hs'⟩
    · rw [h] at hs; cases hs
    · rw [hs'] at hs; injection hs with hs; omega
  have hfmt : ∀ s : Int, w.TotalDuration = F64.finite s → s / (F64.scale : Int) ≤ 9223372036 →
      ∃ h m : Int, formatDuration c w.TotalDuration =
          .ok (toString h ++ " hour " ++ toString m ++ " minute") ∧
        h * 60 + m = ⌊((s : Int) : ℚ) / (F64.scale : ℚ) / 60 + 1 / 2⌋ ∧ 0 ≤ m ∧ m ≤ 59 := by
    intro s hs hr
    rw [hs]
    refine ⟨_, _, formatDuration_nonneg c s (hnonneg s hs) hr, ?_, ?_, ?_⟩
    · rw [floor_round_minute]
      omega
    · omega
    · omega
  have hexact : exactSteps (F64.finite 0) (w.Data.map (fun r => r.Duration)) = true →
      w.TotalDuration = F64.finite ((w.Data.map (fun r => r.Duration.units)).sum) := by
    intro he
    rw [TotalDuration_eq_foldl, exactSteps_foldl _ 0 he, List.map_map, zero_add]
    rfl
  refine ⟨TotalDuration_eq_foldl w, ?_, hnn, ?_, ?_, ?_⟩
  · intro he
    exact ⟨hexact he, fun hr => hfmt _ (hexact he) hr⟩
  · intro s hs hr
    obtain ⟨h, m, h1, h2, h3, h4⟩ := hfmt s hs hr
    refine ⟨h, m, h1, ?_, h3, h4⟩
    rw [h2, hs]
    rfl
  · intro s hs hr
    rw [hs]
    exact formatDuration_large c s (hnonneg s hs) hr
  · intro h
    rw [h]
    cases c <;> exact ⟨_, rfl⟩

/-- Instance of `format_total_nonneg`: the durations 3600, 89.5 and 0.25 seconds,
which accumulate without rounding to 3689.75 seconds. -/
theorem format_total_nonneg_witness :
    (⟨[⟨"a", F64.finite 0, F64.ofInt 3600⟩,
        ⟨"b", F64.finite 0, F64.finite ((179 * 2 ^ 1073 : Nat) : Int)⟩,
        ⟨"c", F64.finite 0, F64.finite ((2 ^ 1072 : Nat) : Int)⟩], [], "", "", ""⟩ :
        WakatimeResponse).TotalDuration
      = F64.finite (([⟨"a", F64.finite 0, F64.ofInt 3600⟩,
        ⟨"b", F64.finite 0, F64.finite ((179 * 2 ^ 1073 : Nat) : Int)⟩,
        ⟨"c", F64.finite 0, F64.finite ((2 ^ 1072 : Nat) : Int)⟩] :
          List DurationResponse).map (fun r => r.Duration.units)).sum :=
  ((format_total_nonneg .indefinite
    ⟨[⟨"a", F64.finite 0, F64.ofInt 3600⟩,
      ⟨"b", F64.finite 0, F64.finite ((179 * 2 ^ 1073 : Nat) : Int)⟩,
      ⟨"c", F64.finite 0, F64.finite ((2 ^ 1072 : Nat) : Int)⟩], [], "", "", ""⟩
    (by
      intro r hr
      simp only [List.mem_cons, List.mem_singleton, List.not_mem_nil, or_false] at hr
      rcases hr with rfl | rfl | rfl
      · exact ⟨_, rfl, by decide⟩
      · exact ⟨_, rfl, by decide⟩
      · exact ⟨_, rfl, by decide⟩)).2.1 (by decide)).1

/-! ## Order of the records -/

/-- C3, counterexample. The durations `2^53, 1, 1` accumulate to `2^53` (each `+ 1`
is rounded away), their permutation `1, 1, 2^53` accumulates to `2^53 + 2`. -/
theorem TotalDuration_order_matters :
    List.Perm
      [(⟨"", F64.finite 0, F64.ofInt 1⟩ : DurationResponse), ⟨"", F64.finite 0, F64.ofInt 1⟩,
        ⟨"", F64.finite 0, F64.ofInt 9007199254740992⟩]
      [⟨"", F64.finite 0, F64.ofInt 9007199254740992⟩, ⟨"", F64.finite 0, F64.ofInt 1⟩,
        ⟨"", F64.finite 0, F64.ofInt 1⟩] ∧
    F64.valid (F64.ofInt 9007199254740992) ∧ F64.valid (F64.ofInt 1) ∧
    (⟨[⟨"", F64.finite 0, F64.ofInt 9007199254740992⟩, ⟨"", F64.finite 0, F64.ofInt 1⟩,
        ⟨"", F64.finite 0, F64.ofInt 1⟩], [], "", "", ""⟩ : WakatimeResponse).TotalDuration
      = F64.ofInt 9007199254740992 ∧
    (⟨[⟨"", F64.finite 0, F64.ofInt 1⟩, ⟨"", F64.finite 0, F64.ofInt 1⟩,
        ⟨"", F64.finite 0, F64.ofInt 9007199254740992⟩], [], "", "", ""⟩ :
        WakatimeResponse).TotalDuration
      = F64.ofInt 9007199254740994 ∧
    F64.ofInt 9007199254740992 ≠ F64.ofInt 9007199254740994 :=
  ⟨by decide, by decide, by decide, rfl, rfl, by decide⟩

/-- C3, as the code has it. The total of a permutation `p` of `Data` equals the total
of `w` whenever no addition rounds in either accumulation, that of `Data` in its
order and that of `p` in its order: both totals are then the exact sum. This is so,
for every permutation, when every `Duration` is a multiple of one power of two `2^e`
(in units of `2^-1074`, so `e = 1074` is whole seconds) and the magnitudes sum to at
most `2^53` such multiples. -/
theorem TotalDuration_perm (w : WakatimeResponse) (p : List DurationResponse)
    (hp : p.Perm w.Data) :
    (exactSteps (F64.finite 0) (w.Data.map (fun r => r.Duration)) = true →
      exactSteps (F64.finite 0) (p.map (fun r => r.Duration)) = true →
      ({ w with Data := p } : WakatimeResponse).TotalDuration = w.TotalDuration ∧
      w.TotalDuration = F64.finite (w.Data.map (fun r => r.Duration.units)).sum) ∧
    (∀ e : Nat, e ≤ 2044 →
      (∀ r ∈ w.Data, ∃ k : Int, r.Duration = F64.finite (k * ((2 ^ e : Nat) : Int))) →
      (w.Data.map (fun r => r.Duration.mag)).sum ≤ 2 ^ (53 + e) →
      exactSteps (F64.finite 0) (w.Data.map (fun r => r.Duration)) = true ∧
      exactSteps (F64.finite 0) (p.map (fun r => r.Duration)) = true ∧
      ({ w with Data := p } : WakatimeResponse).TotalDuration = w.TotalDuration) := by
  have hexact : ∀ l : List DurationResponse,
      exactSteps (F64.finite 0) (l.map (fun r => r.Duration)) = true →
      ({ w with Data := l } : WakatimeResponse).TotalDuration
        = F64.finite ((l.map (fun r => r.Duration.units)).sum) := by
    intro l he
    rw [TotalDuration_eq_foldl, exactSteps_foldl _ 0 he, List.map_map, zero_add]
    rfl
  have hmain : exactSteps (F64.finite 0) (w.Data.map (fun r => r.Duration)) = true →
      exactSteps (F64.finite 0) (p.map (fun r => r.Duration)) = true →
      ({ w with Data := p } : WakatimeResponse).TotalDuration = w.TotalDuration ∧
      w.TotalDuration = F64.finite (w.Data.map (fun r => r.Duration.units)).sum := by
    intro h1 h2
    have e1 := hexact w.Data h1
    have e2 := hexact p h2
    rw [(hp.map (fun r => r.Duration.units)).sum_eq] at e2
    exact ⟨e2.trans e1.symm, e1⟩
  refine ⟨hmain, ?_⟩
  intro e he hmul hsum
  have hl : ∀ l : List DurationResponse, l.Perm w.Data →
      exactSteps (F64.finite 0) (l.map (fun r => r.Duration)) = true := by
    intro l hl
    apply exactSteps_of_multiples e he _ 0 (Int.dvd_zero _)
    · intro d hd
      obtain ⟨r, hr, rfl⟩ := List.mem_map.mp hd
      exact hmul r (hl.mem_iff.mp hr)
    · rw [List.map_map]
      have := (hl.map (fun r => r.Duration.mag)).sum_eq
      simp only [Int.natAbs_zero, Nat.zero_add]
      exact le_of_eq_of_le this hsum
  exact ⟨hl w.Data (List.Perm.refl _), hl p hp, (hmain (hl w.Data (List.Perm.refl _)) (hl p hp)).1⟩

/-- Instance of `TotalDuration_perm`: the durations 1.5, 2.5 and 0.25 seconds and
their rotation 0.25, 1.5, 2.5, whose partial sums differ; neither accumulation
rounds. -/
theorem TotalDuration_perm_witness :
    ({ (⟨[⟨"", F64.finite 0, F64.finite ((3 * 2 ^ 1073 : Nat) : Int)⟩,
          ⟨"", F64.finite 0, F64.finite ((5 * 2 ^ 1073 : Nat) : Int)⟩,
          ⟨"", F64.finite 0, F64.finite ((2 ^ 1072 : Nat) : Int)⟩], [], "", "", ""⟩ :
          WakatimeResponse) with
        Data := [⟨"", F64.finite 0, F64.finite ((2 ^ 1072 : Nat) : Int)⟩,
          ⟨"", F64.finite 0, F64.finite ((3 * 2 ^ 1073 : Nat) : Int)⟩,
          ⟨"", F64.finite 0, F64.finite ((5 * 2 ^ 1073 : Nat) : Int)⟩] } :
      WakatimeResponse).TotalDuration
    = (⟨[⟨"", F64.finite 0, F64.finite ((3 * 2 ^ 1073 : Nat) : Int)⟩,
          ⟨"", F64.finite 0, F64.finite ((5 * 2 ^ 1073 : Nat) : Int)⟩,
          ⟨"", F64.finite 0, F64.finite ((2 ^ 1072 : Nat) : Int)⟩], [], "", "", ""⟩ :
          WakatimeResponse).TotalDuration :=
  ((TotalDuration_perm
    ⟨[⟨"", F64.finite 0, F64.finite ((3 * 2 ^ 1073 : Nat) : Int)⟩,
      ⟨"", F64.finite 0, F64.finite ((5 * 2 ^ 1073 : Nat) : Int)⟩,
      ⟨"", F64.finite 0, F64.finite ((2 ^ 1072 : Nat) : Int)⟩], [], "", "", ""⟩
    [⟨"", F64.finite 0, F64.finite ((2 ^ 1072 : Nat) : Int)⟩,
      ⟨"", F64.finite 0, F64.finite ((3 * 2 ^ 1073 : Nat) : Int)⟩,
      ⟨"", F64.finite 0, F64.finite ((5 * 2 ^ 1073 : Nat) : Int)⟩]
    (by decide)).1 (by decide) (by decide)).1

theorem recordDuration_absent (ms : List (String × Json))
    (h : ∀ kv ∈ ms, durationNumber kv = false) : recordDuration (.obj ms) = F64.finite 0 := by
  unfold recordDuration durationFrom
  dsimp only
  have : ms.reverse.find? durationNumber = none := by
    apply List.find?_eq_none.mpr
    intro kv hkv
    simp [h kv (List.mem_reverse.mp hkv)]
  rw [this]

theorem recordDuration_present (ms1 ms2 : List (String × Json)) (k : String) (m e : Int)
    (f : F64) (hk : fieldMatch "duration" k = true) (hf : F64.ofDecimal m e = some f)
    (h : ∀ kv ∈ ms2, durationNumber kv = false) :
    recordDuration (.obj (ms1 ++ (k, .num m e) :: ms2)) = f := by
  unfold recordDuration durationFrom
  dsimp only
  have h2 : ms2.reverse.find? durationNumber = none := by
    apply List.find?_eq_none.mpr
    intro kv hkv
    simp [h kv (List.mem_reverse.mp hkv)]
  have h1 : durationNumber (k, .num m e) = true := by
    simp [durationNumber, durationKey, hk, hf]
  rw [List.reverse_append, List.reverse_cons, List.append_assoc, List.find?_append, h2]
  simp only [List.singleton_append, Option.none_or, List.find?_cons, h1]
  simp [hf]

/-- C8, counterexample. The body `{"data":[{"duration":10},{"duration":"abc"}]}`
mixes a well-formed record with one whose duration is a string: `parseBody` returns
an error (the one `json.Unmarshal` reports) instead of a total over the first
record. -/
theorem malformed_record_fails :
    ∃ e, (⟨"", "", fun _ => .error ""⟩ : WClient).parseBody .indefinite
      (some (.obj [("data", .arr [.obj [("duration", .num 10 0)],
        .obj [("duration", .str "abc")]])])) = .error e :=
  ⟨_, rfl⟩

/-- C8, as the code has it. A body is decoded without error exactly when the decoder
accepts it: valid JSON, an object or `null`, every known field of the object and of
the records holding a value of its type or `null`. For an accepted body that is an
object with one `data` member, an array of records, `parseBody` formats the float64
sum, accumulated in order, of the records' durations: the number of the duration
field (the last one, if it is given more than once), zero for a record whose duration
is absent or `null`. A record whose duration is present and is neither a number nor
`null` makes `json.Unmarshal`, and so `parseBody`, return an error, whatever the rest
of the body. -/
theorem parseBody_records (w : WClient) (c : F64.Conv) (pre post : List (String × Json))
    (key : String) (hkey : fieldMatch "data" key = true) :
    (∀ xs : List Json,
      (∀ kv ∈ pre, memberOK kv = true) → (∀ kv ∈ post, memberOK kv = true) →
      (∀ x ∈ xs, recordValueOK x = true) →
      w.parseBody c (some (.obj (pre ++ (key, .arr xs) :: post))) =
        formatDuration c ((xs.map recordDuration).foldl F64.add (F64.finite 0))) ∧
    (∀ ms : List (String × Json), (∀ kv ∈ ms, durationNumber kv = false) →
      recordDuration (.obj ms) = F64.finite 0) ∧
    (∀ (ms1 ms2 : List (String × Json)) (k : String) (m e : Int) (f : F64),
      fieldMatch "duration" k = true → F64.ofDecimal m e = some f →
      (∀ kv ∈ ms2, durationNumber kv = false) →
      recordDuration (.obj (ms1 ++ (k, .num m e) :: ms2)) = f) ∧
    (∀ (xs1 xs2 : List Json) (ms1 ms2 : List (String × Json)) (k : String) (v : Json),
      fieldMatch "duration" k = true → isMalformedNumber v = true →
      ∃ e, w.parseBody c (some (.obj (pre ++
        (key, .arr (xs1 ++ .obj (ms1 ++ (k, v) :: ms2) :: xs2)) :: post))) = .error e) ∧
    (∀ b : Option Json,
      (accepts b = false → ∃ e, Unmarshal b = .error e ∧ w.parseBody c b = .error e) ∧
      (accepts b = true → ∃ response, Unmarshal b = .ok response ∧
        w.parseBody c b = formatDuration c response.TotalDuration)) := by
  refine ⟨?_, recordDuration_absent, recordDuration_present, ?_, ?_⟩
  · intro xs hpre hpost hxs
    have ha := accepts_of_members pre post key xs hkey hpre hpost hxs
    obtain ⟨r, hr⟩ := (Unmarshal_accepts _).1 ha
    have hd := Unmarshal_data pre post key xs hkey
      (fun kv hkv => ((memberOK_iff kv).mp (hpre kv hkv)).1)
      (fun kv hkv => ((memberOK_iff kv).mp (hpost kv hkv)).1) r hr
    rw [parseBody_eq w c _ r hr, TotalDuration_eq_foldl, hd]
  · intro xs1 xs2 ms1 ms2 k v hk hv
    obtain ⟨e, he⟩ := Unmarshal_malformed pre post key xs1 xs2 ms1 ms2 k v hkey hk hv
    exact ⟨e, parseBody_error w c _ e he⟩
  · intro b
    constructor
    · intro ha
      obtain ⟨e, he⟩ := (Unmarshal_accepts b).2 ha
      exact ⟨e, he, parseBody_error w c b e he⟩
    · intro ha
      obtain ⟨r, hr⟩ := (Unmarshal_accepts b).1 ha
      exact ⟨r, hr, parseBody_eq w c b r hr⟩

/-- Instance of `parseBody_records`: four records, one without a duration, one with
`null`, one naming the field in another case, beside a `start` member. -/
theorem parseBody_records_witness :
    fieldMatch "data" "data" = true ∧
    (⟨"", "", fun _ => .error ""⟩ : WClient).parseBody .indefinite
      (some (.obj ([] ++ ("data", .arr [.obj [("duration", .num 36005 (-1))],
        .obj [("project", .str "x")], .obj [("duration", .null)],
        .obj [("Duration", .num 30 0), ("time", .null)]])
        :: [("start", .str "2020-01-02")]))) =
      formatDuration .indefinite
        (([.obj [("duration", .num 36005 (-1))], .obj [("project", .str "x")],
          .obj [("duration", .null)],
          .obj [("Duration", Json.num 30 0), ("time", Json.null)]].map recordDuration).foldl
          F64.add (F64.finite 0)) :=
  ⟨by decide,
    (parseBody_records ⟨"", "", fun _ => .error ""⟩ .indefinite [] [("start", .str "2020-01-02")]
      "data" (by decide)).1 _ (by decide) (by decide) (by decide)⟩

end Wakawaka
